import Mathlib

/-!
Verification development for the hybrid retrieval core of the RAG-Tutor
repository (`src/retrieval/graph_retriever.py` and
`src/retrieval/hybrid_retriever.py`).

The Neo4j property graph is modelled as an explicit `GraphDB` value.
Concept nodes are identified by their title (the data model treats the
title as the primary key), resources by their URL.  Node properties that
may be absent in the store are modelled as `Option String`; the Python
idiom `record["p"] or default` is modelled by `pyOr`.

The Cypher queries issued by `GraphRetriever` are modelled as Lean
functions over `GraphDB`:
  * variable length patterns (`*1..d`) are modelled by an explicit
    enumeration of paths of 1..d edges that never reuse a relationship
    (Cypher relationship-uniqueness); parallel identical edges are
    conflated, as the importer merges edges per (type, source, target);
  * `DISTINCT`/aggregation grouping is modelled by folds that keep the
    first occurrence of each grouping key (row order out of Neo4j is
    unspecified; the model fixes the enumeration order);
  * Python's stable `sorted` and Neo4j `ORDER BY` are modelled by a
    stable insertion sort `stableSortBy`.

External collaborators (the ChromaDB semantic search gateway) are not
reimplemented: the hybrid retriever functions take the semantic search
result list as an argument.
-/

/-- Python `x or default` on an optional string property: `None` and the
empty string are falsy. -/
def pyOr (o : Option String) (d : String) : String :=
  match o with
  | none => d
  | some s => if s = "" then d else s

/-- Python `s.lower()` on the (ASCII) relation type names: lower-case
every character. -/
def strLower (s : String) : String :=
  ⟨s.data.map Char.toLower⟩

/-- A `Concept` node: `title` is the primary key; `definition` and
`difficulty` are properties that may be absent. -/
structure ConceptNode where
  title : String
  definition : Option String
  difficulty : Option String
deriving DecidableEq, Repr

/-- A typed relationship between two concept titles (`PREREQ_OF`,
`IS_A`, `PART_OF`, `SIBLING`, `CONTRASTS_WITH`). -/
structure Edge where
  src : String
  tgt : String
  rel : String
deriving DecidableEq, Repr

/-- A `Resource` node: identified by its URL; the `type` property may be
absent (field named `rtype` because `type` is reserved in Lean). -/
structure ResourceNode where
  url : String
  rtype : Option String
deriving DecidableEq, Repr

/-- An `Example` node; every property may be absent in the store. -/
structure ExampleNode where
  text : Option String
  example_type : Option String
  source_url : Option String
deriving DecidableEq, Repr

/-- The property graph: concept nodes, typed concept-to-concept edges,
`EXPLAINS` edges (resource, concept title) and `EXEMPLIFIES` edges
(example, concept title). -/
structure GraphDB where
  concepts : List ConceptNode
  edges : List Edge
  explains : List (ResourceNode × String)
  exemplifies : List (ExampleNode × String)
deriving DecidableEq, Repr

/-- `RetrievedConcept` dataclass of `graph_retriever.py`. -/
structure RetrievedConcept where
  title : String
  definition : String
  difficulty : String
  depth : Nat
  relation_to_seed : String
  seed_concept : String
deriving DecidableEq, Repr

/-- `RetrievedResource` dataclass.  `page_numbers` and `timecodes` are
always set to `None` by the retriever. -/
structure RetrievedResource where
  url : String
  resource_type : String
  title : String
  concepts_explained : List String
  page_numbers : Option (List Nat)
  timecodes : Option (List (String × String))
deriving DecidableEq, Repr

/-- `RetrievedExample` dataclass.  The dataclass annotates `text : str`,
but the retriever stores `record["text"]` unmodified, which is `None`
when the property is absent; the field is therefore `Option String`. -/
structure RetrievedExample where
  text : Option String
  example_type : String
  concept : String
  source_url : String
deriving DecidableEq, Repr

/-- `Subgraph` dataclass. -/
structure Subgraph where
  seed_concepts : List String
  concepts : List RetrievedConcept
  resources : List RetrievedResource
  examples : List RetrievedExample
  prereq_chain : List (List String)
deriving DecidableEq, Repr

/-- Whether a `Concept` node with the given title exists. -/
def hasConcept (g : GraphDB) (t : String) : Bool :=
  g.concepts.any (fun c => decide (c.title = t))

/-- The concept node with the given title (titles are unique keys). -/
def findConcept (g : GraphDB) (t : String) : Option ConceptNode :=
  g.concepts.find? (fun c => decide (c.title = t))

/-- `c.definition` of the concept node titled `t` (null if absent). -/
def conceptDef (g : GraphDB) (t : String) : Option String :=
  (findConcept g t).bind (fun c => c.definition)

/-- `c.difficulty` of the concept node titled `t` (null if absent). -/
def conceptDiff (g : GraphDB) (t : String) : Option String :=
  (findConcept g t).bind (fun c => c.difficulty)

/-- Stable insertion of `a` into `l`: `a` goes in front of the first
element not strictly below it. -/
def insertSorted (lt : α → α → Bool) (a : α) : List α → List α
  | [] => [a]
  | x :: xs => if lt x a then x :: insertSorted lt a xs else a :: x :: xs

/-- Stable sort by the strict comparison `lt`: model of Python's stable
`sorted` (and of a deterministic Neo4j `ORDER BY`). -/
def stableSortBy (lt : α → α → Bool) (l : List α) : List α :=
  l.foldr (insertSorted lt) []

/-- Python's append-if-new loop: extends `res` with each element of
`ts` not yet present, in order.  Models both the trailing
`for title in titles: if title not in result: result.append(title)`
loop of `get_topological_order` and `DISTINCT` row deduplication. -/
def pyAppendNew [DecidableEq α] (res : List α) (ts : List α) : List α :=
  ts.foldl (fun r t => if t ∈ r then r else r ++ [t]) res

/-- Keep the first occurrence of each element (Cypher `DISTINCT`). -/
def dedupKeepFirst [DecidableEq α] (l : List α) : List α :=
  pyAppendNew [] l

/-! ### `GraphRetriever._get_seed_concepts` -/

/-- `_get_seed_concepts`: one row per input title whose concept node
exists (absent titles are silently dropped), tagged `depth = 0`,
`relation_to_seed = "seed"`. -/
def _get_seed_concepts (g : GraphDB) (titles : List String) : List RetrievedConcept :=
  titles.filterMap (fun t =>
    (findConcept g t).map (fun c =>
      { title := c.title
        definition := pyOr c.definition ""
        difficulty := pyOr c.difficulty "unknown"
        depth := 0
        relation_to_seed := "seed"
        seed_concept := c.title }))

/-! ### `GraphRetriever._get_prerequisites` -/

/-- All `PREREQ_OF` paths of 1..fuel edges ending at `t`, as node-title
lists `[n0, …, t]`, never reusing a relationship.  Intermediate nodes
carry no label constraint in the Cypher pattern, so no node-existence
check happens here. -/
def prereqPathsTo (g : GraphDB) : Nat → String → List Edge → List (List String)
  | 0, _, _ => []
  | fuel + 1, t, used =>
    (g.edges.filter (fun e =>
        decide (e.rel = "PREREQ_OF") && decide (e.tgt = t) && !(decide (e ∈ used)))).foldr
      (fun e acc =>
        ([e.src, t] :: (prereqPathsTo g fuel e.src (e :: used)).map (fun p => p ++ [t])) ++ acc)
      []

/-- Rows of the `_get_prerequisites` query before aggregation:
`(prereq title, seed title, path length)` for every seed (in `UNWIND`
order) whose concept node exists and every path whose start node is a
concept. -/
def prereqRows (g : GraphDB) (seed_titles : List String) (depth : Nat) :
    List (String × String × Nat) :=
  seed_titles.flatMap (fun s =>
    if hasConcept g s then
      (prereqPathsTo g depth s []).filterMap (fun p =>
        if hasConcept g p.headI then some (p.headI, s, p.length - 1) else none)
    else [])

/-- Aggregation `RETURN DISTINCT …, min(dist)`: group rows by
(prereq title, seed title), keeping the minimum distance, in first
occurrence order. -/
def groupMinDist (rows : List (String × String × Nat)) : List (String × String × Nat) :=
  rows.foldl (fun acc r =>
    if acc.any (fun x => decide (x.1 = r.1) && decide (x.2.1 = r.2.1)) then
      acc.map (fun x =>
        if x.1 = r.1 ∧ x.2.1 = r.2.1 ∧ r.2.2 < x.2.2 then (x.1, x.2.1, r.2.2) else x)
    else acc ++ [r]) []

/-- Strict comparison on the distance component (for `ORDER BY depth`). -/
def ltDist (a b : String × String × Nat) : Bool :=
  decide (a.2.2 < b.2.2)

/-- `_get_prerequisites`: minimum-distance prerequisite rows, ordered by
depth, tagged `relation_to_seed = "prerequisite"`. -/
def _get_prerequisites (g : GraphDB) (seed_titles : List String) (depth : Nat) :
    List RetrievedConcept :=
  (stableSortBy ltDist (groupMinDist (prereqRows g seed_titles depth))).map (fun r =>
    { title := r.1
      definition := pyOr (conceptDef g r.1) ""
      difficulty := pyOr (conceptDiff g r.1) "unknown"
      depth := r.2.2
      relation_to_seed := "prerequisite"
      seed_concept := r.2.1 })

/-! ### `GraphRetriever._get_related_concepts` -/

/-- The peer relation types. -/
def peerRels : List String := ["IS_A", "PART_OF", "SIBLING", "CONTRASTS_WITH"]

/-- Undirected peer-relation paths of 1..fuel edges starting at `t`,
never reusing a relationship, as lists of `(relation type, next node)`
steps. -/
def peerPathsFrom (g : GraphDB) : Nat → String → List Edge → List (List (String × String))
  | 0, _, _ => []
  | fuel + 1, t, used =>
    (g.edges.filter (fun e => decide (e.rel ∈ peerRels) && !(decide (e ∈ used)))).foldr
      (fun e acc =>
        ((if decide (e.src = t) then
          [(e.rel, e.tgt)] ::
            (peerPathsFrom g fuel e.tgt (e :: used)).map (fun p => (e.rel, e.tgt) :: p)
        else []) ++
        (if decide (e.tgt = t) then
          [(e.rel, e.src)] ::
            (peerPathsFrom g fuel e.src (e :: used)).map (fun p => (e.rel, e.src) :: p)
        else [])) ++ acc)
      []

/-- The relation type of the first traversed edge of a path
(Cypher `type(r[0])`). -/
def pathFirstRel (p : List (String × String)) : String :=
  p.headI.1

/-- The title of the node a path ends at. -/
def pathEnd (p : List (String × String)) : String :=
  (p.getLastD ("", "")).2

/-- Rows of the `_get_related_concepts` query before `DISTINCT`:
`(related title, relation type of first edge, seed title)`, requiring
the end node to be a concept distinct from the seed. -/
def relatedRows (g : GraphDB) (seed_titles : List String) (depth : Nat) :
    List (String × String × String) :=
  seed_titles.flatMap (fun s =>
    if hasConcept g s then
      (peerPathsFrom g depth s []).filterMap (fun p =>
        if hasConcept g (pathEnd p) ∧ pathEnd p ≠ s then
          some (pathEnd p, pathFirstRel p, s)
        else none)
    else [])

/-- `_get_related_concepts`: distinct related rows, tagged with the
lower-cased relation type and `depth = 1` regardless of the traversal
depth. -/
def _get_related_concepts (g : GraphDB) (seed_titles : List String) (depth : Nat) :
    List RetrievedConcept :=
  (dedupKeepFirst (relatedRows g seed_titles depth)).map (fun r =>
    { title := r.1
      definition := pyOr (conceptDef g r.1) ""
      difficulty := pyOr (conceptDiff g r.1) "unknown"
      depth := 1
      relation_to_seed := strLower r.2.1
      seed_concept := r.2.2 })

/-! ### `GraphRetriever._deduplicate_concepts` -/

/-- One step of the `seen` dictionary loop: insert `c`, or replace the
existing entry with the same title in place when `c` has strictly
smaller depth (Python dicts preserve the insertion position of a key on
update). -/
def updateSeen (acc : List RetrievedConcept) (c : RetrievedConcept) : List RetrievedConcept :=
  if acc.any (fun x => decide (x.title = c.title)) then
    acc.map (fun x => if x.title = c.title ∧ c.depth < x.depth then c else x)
  else acc ++ [c]

/-- The `seen` dictionary of `_deduplicate_concepts` as a list of values
in key-insertion order. -/
def dedupFold (concepts : List RetrievedConcept) : List RetrievedConcept :=
  concepts.foldl updateSeen []

/-- Strict comparison on `depth` (the `sorted` key). -/
def ltDepth (a b : RetrievedConcept) : Bool :=
  decide (a.depth < b.depth)

/-- `_deduplicate_concepts`: lowest-depth-wins dedup by title, stable
sort ascending by depth, truncation to `max_concepts`. -/
def _deduplicate_concepts (concepts : List RetrievedConcept) (max_concepts : Nat) :
    List RetrievedConcept :=
  (stableSortBy ltDepth (dedupFold concepts)).take max_concepts

/-! ### `GraphRetriever._get_prereq_chains` -/

/-- Candidate chains for one seed: `PREREQ_OF` paths of 1..depth edges
ending at the seed whose start node is a concept (pattern
`(prereq:Concept)-[:PREREQ_OF*1..d]->(seed:Concept {title: $seed})`). -/
def chainPaths (g : GraphDB) (depth : Nat) (s : String) : List (List String) :=
  if hasConcept g s then
    (prereqPathsTo g depth s []).filter (fun p => hasConcept g p.headI)
  else []

/-- `ORDER BY length(path) DESC LIMIT 1`: the first path of maximal
length (Neo4j breaks length ties arbitrarily; the model keeps the first
enumerated). -/
def pickLongest : List (List String) → Option (List String)
  | [] => none
  | p :: ps => some (ps.foldl (fun best q => if best.length < q.length then q else best) p)

/-- `_get_prereq_chains`: one chain per seed in seed order; the node
titles of a longest prerequisite path into the seed, or `[seed]` when no
such path exists. -/
def _get_prereq_chains (g : GraphDB) (seed_titles : List String) (depth : Nat) :
    List (List String) :=
  seed_titles.map (fun s =>
    match pickLongest (chainPaths g depth s) with
    | some p => p
    | none => [s])

/-! ### `GraphRetriever._get_resources` -/

/-- Rows of the resource query after grouping: one row
`(url, type, explained concept titles)` per distinct `(url, type)` key,
collecting the distinct concept titles (among the queried ones) the
resource explains. -/
def resourceRows (g : GraphDB) (titles : List String) :
    List (String × Option String × List String) :=
  (titles.flatMap (fun t =>
    if hasConcept g t then
      (g.explains.filter (fun pr => decide (pr.2 = t))).map (fun pr => (pr.1, t))
    else [])).foldl
    (fun acc pr =>
      if acc.any (fun row => decide (row.1 = pr.1.url) && decide (row.2.1 = pr.1.rtype)) then
        acc.map (fun row =>
          if row.1 = pr.1.url ∧ row.2.1 = pr.1.rtype then
            (row.1, row.2.1, if pr.2 ∈ row.2.2 then row.2.2 else row.2.2 ++ [pr.2])
          else row)
      else acc ++ [(pr.1.url, pr.1.rtype, [pr.2])]) []

/-- `_get_resources`: grouped rows deduplicated by URL (keep first),
with the missing-type default and the URL reused as title. -/
def _get_resources (g : GraphDB) (concept_titles : List String) : List RetrievedResource :=
  (resourceRows g concept_titles).foldl (fun acc row =>
    if acc.any (fun r => decide (r.url = row.1)) then acc
    else acc ++ [{ url := row.1
                   resource_type := pyOr row.2.1 "unknown"
                   title := row.1
                   concepts_explained := row.2.2
                   page_numbers := none
                   timecodes := none }]) []

/-! ### `GraphRetriever._get_examples` -/

/-- Strict comparison on `example_type` for `ORDER BY e.example_type`
(Neo4j sorts null values last in ascending order). -/
def exLt (a b : ExampleNode) : Bool :=
  match a.example_type, b.example_type with
  | some x, some y => decide (x < y)
  | some _, none => true
  | none, _ => false

/-- `_get_examples`: per queried concept (in order), its linked examples
sorted by type, capped at `max_per`, with property defaults.  The `text`
property is stored unmodified (no default). -/
def _get_examples (g : GraphDB) (concept_titles : List String) (max_per : Nat) :
    List RetrievedExample :=
  concept_titles.flatMap (fun t =>
    if hasConcept g t then
      ((stableSortBy exLt
          ((g.exemplifies.filter (fun pr => decide (pr.2 = t))).map (fun pr => pr.1))).take
        max_per).map (fun e =>
        { text := e.text
          example_type := pyOr e.example_type "unknown"
          concept := t
          source_url := pyOr e.source_url "" })
    else [])

/-! ### `GraphRetriever.expand_seeds` -/

/-- `expand_seeds`: seeds, prerequisites and related concepts appended
in that order, deduplicated and truncated; prerequisite chains,
resources and examples for the final concept set. -/
def expand_seeds (g : GraphDB) (seed_titles : List String) (prereq_depth : Nat)
    (related_depth : Nat) (max_concepts : Nat) (max_examples_per_concept : Nat) : Subgraph :=
  let concepts0 := _get_seed_concepts g seed_titles
  let concepts1 := concepts0 ++ _get_prerequisites g seed_titles prereq_depth
  let concepts2 := concepts1 ++ _get_related_concepts g seed_titles related_depth
  let concepts := _deduplicate_concepts concepts2 max_concepts
  let concept_titles := concepts.map (fun c => c.title)
  { seed_concepts := seed_titles
    concepts := concepts
    resources := _get_resources g concept_titles
    examples := _get_examples g concept_titles max_examples_per_concept
    prereq_chain := _get_prereq_chains g seed_titles prereq_depth }

/-! ### `GraphRetriever.get_topological_order` (Kahn's algorithm) -/

/-- The `PREREQ_OF` edges both of whose endpoints are concepts with a
title in the given set, as `(prereq, dependent)` pairs. -/
def internalPrereqEdges (g : GraphDB) (titles : List String) : List (String × String) :=
  (g.edges.filter (fun e =>
    decide (e.rel = "PREREQ_OF") && decide (e.src ∈ titles) && decide (e.tgt ∈ titles) &&
      hasConcept g e.src && hasConcept g e.tgt)).map (fun e => (e.src, e.tgt))

/-- `defaultdict(int)` lookup: 0 for a missing key. -/
def dget (m : List (String × Int)) (t : String) : Int :=
  match m.find? (fun p => decide (p.1 = t)) with
  | some p => p.2
  | none => 0

/-- `defaultdict(int)` update `m[t] = f(m[t])`: updates the existing key
in place, or appends the key initialised from the default 0. -/
def dupdate (m : List (String × Int)) (t : String) (f : Int → Int) : List (String × Int) :=
  if m.any (fun p => decide (p.1 = t)) then
    m.map (fun p => if p.1 = t then (p.1, f p.2) else p)
  else m ++ [(t, f 0)]

/-- Adjacency list of a node: the `defaultdict(list)` built from the
edge list (`graph[prereq].append(dependent)`). -/
def adjOf (edges : List (String × String)) (node : String) : List String :=
  (edges.filter (fun e => decide (e.1 = node))).map (fun e => e.2)

/-- Sum of the positive parts of the in-degree counters (used as the
iteration bound of the Kahn loop). -/
def intSum (m : List (String × Int)) : Nat :=
  m.foldr (fun p acc => p.2.toNat + acc) 0

/-- Inner loop over the successors of a dequeued node: decrement each
successor's counter and enqueue it when the counter hits exactly 0. -/
def processNeighbors (m : List (String × Int)) (q : List String) :
    List String → List (String × Int) × List String
  | [] => (m, q)
  | n :: ns =>
    let m' := dupdate m n (fun v => v - 1)
    let q' := if dget m' n = 0 then q ++ [n] else q
    processNeighbors m' q' ns

/-- The Kahn while-loop.  The loop of the Python source runs until the
queue is empty; here it is given `queue.length + intSum m` as fuel,
which is proved (`kahnLoop_fuel_drop`) to decrease at every iteration,
so the fuel never runs out when the loop starts with that budget. -/
def kahnLoop (edges : List (String × String)) :
    Nat → List (String × Int) → List String → List String → List String
  | _, _, [], res => res
  | 0, _, _ :: _, res => res
  | fuel + 1, m, node :: rest, res =>
    let pr := processNeighbors m rest (adjOf edges node)
    kahnLoop edges fuel pr.1 pr.2 (res ++ [node])

/-- `get_topological_order`: Kahn's algorithm over the internal
`PREREQ_OF` edges, followed by appending every input title not placed by
the loop, in original input order. -/
def get_topological_order (g : GraphDB) (concepts : List RetrievedConcept) : List String :=
  let titles := concepts.map (fun c => c.title)
  let edges := internalPrereqEdges g titles
  let m1 := titles.foldl (fun m t => dupdate m t (fun _ => 0)) []
  let m0 := edges.foldl (fun m e => dupdate m e.2 (fun v => v + 1)) m1
  let queue0 := titles.filter (fun t => decide (dget m0 t = 0))
  let kres := kahnLoop edges (queue0.length + intSum m0) m0 queue0 []
  pyAppendNew kres titles

/-! ### `HybridRetriever` -/

/-- One semantic search match (`{title, definition, difficulty, score}`
dict); only the title is read by the retriever, the score orders the
gateway's result list. -/
structure SemanticMatch where
  title : String
  score : Int
deriving DecidableEq, Repr

/-- `RetrievalResult` dataclass of `hybrid_retriever.py`. -/
structure RetrievalResult where
  query : String
  semantic_matches : List SemanticMatch
  seed_concepts : List String
  subgraph : Subgraph
  ordered_concepts : List String
deriving DecidableEq, Repr

/-- `HybridRetriever.retrieve`, with the result of the external semantic
search gateway passed in as `semantic_matches` (the `top_k` and
`min_score` parameters are consumed by that gateway).  With no matches
it short-circuits to the defined empty result without touching the
graph. -/
def retrieve (g : GraphDB) (query : String) (semantic_matches : List SemanticMatch)
    (prereq_depth related_depth max_concepts max_examples_per_concept : Nat) :
    RetrievalResult :=
  let seed_concepts := semantic_matches.map (fun m => m.title)
  if seed_concepts.isEmpty then
    { query := query
      semantic_matches := []
      seed_concepts := []
      subgraph := { seed_concepts := [], concepts := [], resources := [], examples := []
                    prereq_chain := [] }
      ordered_concepts := [] }
  else
    let subgraph := expand_seeds g seed_concepts prereq_depth related_depth max_concepts
      max_examples_per_concept
    { query := query
      semantic_matches := semantic_matches
      seed_concepts := seed_concepts
      subgraph := subgraph
      ordered_concepts := get_topological_order g subgraph.concepts }

/-- `HybridRetriever.retrieve_with_explicit_concepts`: explicit seed
titles first, then each semantic match title not already in the growing
seed list, then the same expansion/ordering/assembly as `retrieve`. -/
def retrieve_with_explicit_concepts (g : GraphDB) (query : String)
    (explicit_concepts : List String) (semantic_matches : List SemanticMatch)
    (prereq_depth related_depth max_concepts max_examples_per_concept : Nat) :
    RetrievalResult :=
  let seed_concepts := semantic_matches.foldl
    (fun acc m => if m.title ∈ acc then acc else acc ++ [m.title]) explicit_concepts
  let subgraph := expand_seeds g seed_concepts prereq_depth related_depth max_concepts
    max_examples_per_concept
  { query := query
    semantic_matches := semantic_matches
    seed_concepts := seed_concepts
    subgraph := subgraph
    ordered_concepts := get_topological_order g subgraph.concepts }

/-- First occurrences of the elements of a list not yet seen
(specification-side companion of `pyAppendNew`). -/
def keepFirsts [DecidableEq α] (seen : List α) : List α → List α
  | [] => []
  | t :: ts => if t ∈ seen then keepFirsts seen ts else t :: keepFirsts (seen ++ [t]) ts

/-- Pending in-degree of `t`: the number of edge instances into `t`
whose source has not been placed in `res` yet.  The loop keeps every
in-degree counter equal to this quantity. -/
def pend (edges : List (String × String)) (res : List String) (t : String) : Int :=
  (edges.countP (fun e => decide (e.2 = t) && !(decide (e.1 ∈ res))) : Int)

/-- Invariant of the Kahn loop of `get_topological_order`: the counters
track pending in-degrees; queue and result are duplicate-free, disjoint
subsets of the titles; queued or placed titles have pending in-degree 0
and vice versa; and every internal edge into a placed title comes from
an earlier placed title. -/
def KahnInv (titles : List String) (edges : List (String × String))
    (m : List (String × Int)) (q res : List String) : Prop :=
  (∀ t, dget m t = pend edges res t) ∧
  res.Nodup ∧ q.Nodup ∧ (∀ t, t ∈ q → t ∉ res) ∧
  (∀ t ∈ res, t ∈ titles) ∧ (∀ t ∈ q, t ∈ titles) ∧
  (∀ t, t ∈ q ∨ t ∈ res → pend edges res t = 0) ∧
  (∀ t ∈ titles, pend edges res t = 0 → t ∈ res ∨ t ∈ q) ∧
  (∀ a b, (a, b) ∈ edges → b ∈ res → a ∈ res ∧ res.indexOf a < res.indexOf b)

/-- The elements of `ts` outside `pre`, first occurrences only, with the
`pre` accumulator threaded (recursion companion of `pyAppendNew`). -/
def dedupNotIn [DecidableEq α] (pre : List α) : List α → List α
  | [] => []
  | t :: ts => if t ∈ pre then dedupNotIn pre ts else t :: dedupNotIn (pre ++ [t]) ts

/-! ### Concrete instances (used by witnesses and counterexamples) -/

/-- The empty graph. -/
def exEmptyGraph : GraphDB := ⟨[], [], [], []⟩

/-- A retrieved concept titled `A`. -/
def exConA : RetrievedConcept := ⟨"A", "", "unknown", 0, "seed", "A"⟩

/-- A retrieved concept titled `B`. -/
def exConB : RetrievedConcept := ⟨"B", "", "unknown", 0, "seed", "B"⟩

/-- A two-concept graph with the single edge `A -PREREQ_OF-> B`. -/
def exABGraph : GraphDB :=
  ⟨[⟨"A", none, none⟩, ⟨"B", none, none⟩], [⟨"A", "B", "PREREQ_OF"⟩], [], []⟩

/-- The prerequisite-chain scenario of the specification:
`Calculus -PREREQ_OF-> Derivatives -PREREQ_OF-> Gradient Descent`. -/
def exGdGraph : GraphDB :=
  { concepts := [⟨"Gradient Descent", some "gd", some "intermediate"⟩,
                 ⟨"Derivatives", some "d", some "beginner"⟩,
                 ⟨"Calculus", some "c", none⟩]
    edges := [⟨"Derivatives", "Gradient Descent", "PREREQ_OF"⟩,
              ⟨"Calculus", "Derivatives", "PREREQ_OF"⟩]
    explains := []
    exemplifies := [] }

/-- A graph with one `SIBLING` edge between concepts `A` and `S`. -/
def exRelGraph : GraphDB :=
  ⟨[⟨"A", none, none⟩, ⟨"S", none, none⟩], [⟨"A", "S", "SIBLING"⟩], [], []⟩

/-- A graph whose single example node has no properties at all. -/
def exExampleGraph : GraphDB :=
  ⟨[⟨"C", none, none⟩], [], [], [(⟨none, none, none⟩, "C")]⟩

/-- A two-element concept list with distinct titles and depths 0 and 1. -/
def exDedupList : List RetrievedConcept :=
  [⟨"x", "", "", 0, "seed", "s"⟩, ⟨"y", "", "", 1, "prerequisite", "s"⟩]

/-! ## Theorems -/

/-! ### Stable sort -/

theorem mem_insertSorted {lt : α → α → Bool} {a x : α} {l : List α} :
    x ∈ insertSorted lt a l ↔ x = a ∨ x ∈ l := by
  induction l with
  | nil => simp [insertSorted]
  | cons y ys ih =>
    cases h : lt y a with
    | true =>
      simp only [insertSorted, h, if_true, List.mem_cons, ih]
      tauto
    | false =>
      simp only [insertSorted, h, Bool.false_eq_true, if_false, List.mem_cons]

theorem insertSorted_perm (lt : α → α → Bool) (a : α) (l : List α) :
    (insertSorted lt a l).Perm (a :: l) := by
  induction l with
  | nil => simp [insertSorted]
  | cons y ys ih =>
    cases h : lt y a with
    | true =>
      simp only [insertSorted, h, if_true]
      exact (ih.cons y).trans (List.Perm.swap a y ys)
    | false =>
      simp [insertSorted, h]

theorem stableSortBy_perm (lt : α → α → Bool) (l : List α) :
    (stableSortBy lt l).Perm l := by
  induction l with
  | nil => simp [stableSortBy]
  | cons a as ih =>
    have : stableSortBy lt (a :: as) = insertSorted lt a (stableSortBy lt as) := rfl
    rw [this]
    exact (insertSorted_perm lt a _).trans (ih.cons a)

theorem pairwise_insertSorted {lt : α → α → Bool} {T : α → α → Prop} {a : α} {L : List α}
    (hL : L.Pairwise T)
    (h1 : ∀ x ∈ L, lt x a = true → T x a)
    (h2 : ∀ x ∈ L, lt x a = false → T a x)
    (h3 : ∀ x y, x ∈ L → y ∈ L → lt x a = false → T x y → lt y a = false) :
    (insertSorted lt a L).Pairwise T := by
  induction L with
  | nil => simp [insertSorted]
  | cons x xs ih =>
    rcases List.pairwise_cons.mp hL with ⟨hx, hxs⟩
    cases h : lt x a with
    | true =>
      simp only [insertSorted, h, if_true]
      refine List.pairwise_cons.mpr ⟨?_, ?_⟩
      · intro y hy
        rcases mem_insertSorted.mp hy with rfl | hy'
        · exact h1 x (by simp) h
        · exact hx y hy'
      · exact ih hxs
          (fun z hz hlt => h1 z (List.mem_cons_of_mem x hz) hlt)
          (fun z hz hlt => h2 z (List.mem_cons_of_mem x hz) hlt)
          (fun z w hz hw hlt hT =>
            h3 z w (List.mem_cons_of_mem x hz) (List.mem_cons_of_mem x hw) hlt hT)
    | false =>
      simp only [insertSorted, h, Bool.false_eq_true, if_false]
      refine List.pairwise_cons.mpr ⟨?_, hL⟩
      intro y hy
      rcases List.mem_cons.mp hy with rfl | hy'
      · exact h2 y (by simp) h
      · exact h2 y (List.mem_cons_of_mem x hy') (h3 x y (by simp) (List.mem_cons_of_mem x hy') h (hx y hy'))

theorem stableSortBy_pairwise {lt : α → α → Bool} {C : α → α → Prop} {l : List α}
    (hasym : ∀ x y, lt x y = true → lt y x = false)
    (hnegtrans : ∀ x y z, lt x y = false → lt y z = false → lt x z = false)
    (hC : l.Pairwise C) :
    (stableSortBy lt l).Pairwise (fun x y => lt y x = false ∧ (lt x y = false → C x y)) := by
  induction l with
  | nil => simp [stableSortBy]
  | cons a as ih =>
    rcases List.pairwise_cons.mp hC with ⟨ha, has⟩
    have key : stableSortBy lt (a :: as) = insertSorted lt a (stableSortBy lt as) := rfl
    rw [key]
    refine pairwise_insertSorted (ih has) ?_ ?_ ?_
    · intro x _ hlt
      refine ⟨hasym x a hlt, fun hf => ?_⟩
      rw [hlt] at hf
      exact absurd hf (by simp)
    · intro x hx hf
      exact ⟨hf, fun _ => ha x ((stableSortBy_perm lt as).mem_iff.mp hx)⟩
    · intro x y _ _ hxa hT
      exact hnegtrans y x a hT.1 hxa

theorem pairwise_true (l : List α) : l.Pairwise (fun _ _ => True) := by
  induction l with
  | nil => exact List.Pairwise.nil
  | cons a as ih => exact List.pairwise_cons.mpr ⟨fun _ _ => trivial, ih⟩

theorem ltDepth_asymm : ∀ x y : RetrievedConcept, ltDepth x y = true → ltDepth y x = false := by
  intro x y h
  simp only [ltDepth, decide_eq_true_eq] at h
  simp only [ltDepth, decide_eq_false_iff_not]
  omega

theorem ltDepth_negtrans : ∀ x y z : RetrievedConcept,
    ltDepth x y = false → ltDepth y z = false → ltDepth x z = false := by
  intro x y z hxy hyz
  simp only [ltDepth, decide_eq_false_iff_not] at hxy hyz ⊢
  omega

/-! ### Deduplication (`_deduplicate_concepts`) -/

theorem map_title_updateSeen (acc : List RetrievedConcept) (c : RetrievedConcept) :
    (updateSeen acc c).map (fun x => x.title) =
      if acc.any (fun x => decide (x.title = c.title)) then acc.map (fun x => x.title)
      else acc.map (fun x => x.title) ++ [c.title] := by
  unfold updateSeen
  cases h : acc.any (fun x => decide (x.title = c.title)) with
  | true =>
    simp only [h, if_true]
    rw [List.map_map]
    apply List.map_congr_left
    intro x _
    by_cases hx : x.title = c.title ∧ c.depth < x.depth
    · simp [Function.comp, hx, hx.1]
    · simp [Function.comp, hx]
  | false => simp [h]

theorem mem_updateSeen {acc : List RetrievedConcept} {c x : RetrievedConcept}
    (h : x ∈ updateSeen acc c) : x ∈ acc ∨ x = c := by
  unfold updateSeen at h
  split at h
  · rcases List.mem_map.mp h with ⟨y, hy, hxy⟩
    by_cases hc : y.title = c.title ∧ c.depth < y.depth
    · simp only [hc, if_true] at hxy
      exact Or.inr hxy.symm
    · simp only [hc, if_false] at hxy
      exact Or.inl (hxy ▸ hy)
  · rcases List.mem_append.mp h with h' | h'
    · exact Or.inl h'
    · exact Or.inr (List.mem_singleton.mp h')

theorem nodup_title_updateSeen {acc : List RetrievedConcept} (c : RetrievedConcept)
    (h : (acc.map (fun x => x.title)).Nodup) :
    ((updateSeen acc c).map (fun x => x.title)).Nodup := by
  rw [map_title_updateSeen]
  cases hany : acc.any (fun x => decide (x.title = c.title)) with
  | true => simpa using h
  | false =>
    simp only [Bool.false_eq_true, if_false]
    have : c.title ∉ acc.map (fun x => x.title) := by
      intro hc
      rcases List.mem_map.mp hc with ⟨y, hy, hyt⟩
      have : acc.any (fun x => decide (x.title = c.title)) = true :=
        List.any_eq_true.mpr ⟨y, hy, by simp [hyt]⟩
      rw [hany] at this
      exact absurd this (by simp)
    simp [List.nodup_append, h, this]

theorem nodup_title_dedupFoldAux (l : List RetrievedConcept) :
    ∀ acc : List RetrievedConcept, (acc.map (fun x => x.title)).Nodup →
      ((l.foldl updateSeen acc).map (fun x => x.title)).Nodup := by
  induction l with
  | nil => intro acc h; simpa using h
  | cons c cs ih =>
    intro acc h
    exact ih (updateSeen acc c) (nodup_title_updateSeen c h)

theorem nodup_title_dedupFold (l : List RetrievedConcept) :
    ((dedupFold l).map (fun x => x.title)).Nodup :=
  nodup_title_dedupFoldAux l [] (by simp)

theorem mem_dedupFoldAux (l : List RetrievedConcept) :
    ∀ acc x, x ∈ l.foldl updateSeen acc → x ∈ acc ∨ x ∈ l := by
  induction l with
  | nil => intro acc x h; exact Or.inl h
  | cons c cs ih =>
    intro acc x h
    rcases ih (updateSeen acc c) x h with h' | h'
    · rcases mem_updateSeen h' with h'' | h''
      · exact Or.inl h''
      · exact Or.inr (by simp [h''])
    · exact Or.inr (List.mem_cons_of_mem c h')

theorem mem_dedupFold {l : List RetrievedConcept} {x : RetrievedConcept}
    (h : x ∈ dedupFold l) : x ∈ l := by
  rcases mem_dedupFoldAux l [] x h with h' | h'
  · exact absurd h' (by simp)
  · exact h'

theorem nodup_dedupFold (l : List RetrievedConcept) : (dedupFold l).Nodup :=
  (nodup_title_dedupFold l).of_map

theorem pairwise_indexOf_of_nodup [DecidableEq α] {l : List α} (h : l.Nodup) :
    l.Pairwise (fun x y => l.indexOf x < l.indexOf y) := by
  induction l with
  | nil => exact List.Pairwise.nil
  | cons a as ih =>
    rcases List.nodup_cons.mp h with ⟨ha, has⟩
    refine List.pairwise_cons.mpr ⟨?_, ?_⟩
    · intro y hy
      have hya : y ≠ a := fun hh => ha (hh ▸ hy)
      rw [List.indexOf_cons_self, List.indexOf_cons_ne _ hya.symm]
      exact Nat.succ_pos _
    · refine (ih has).imp_of_mem ?_
      intro x y hx hy hxy
      have hxa : x ≠ a := fun hh => ha (hh ▸ hx)
      have hya : y ≠ a := fun hh => ha (hh ▸ hy)
      rw [List.indexOf_cons_ne _ hxa.symm, List.indexOf_cons_ne _ hya.symm]
      exact Nat.succ_lt_succ hxy

theorem dedup_concepts_invariants (l : List RetrievedConcept) (mc : Nat) :
    ((_deduplicate_concepts l mc).map (fun c => c.title)).Nodup ∧
    (_deduplicate_concepts l mc).Pairwise (fun a b => a.depth ≤ b.depth) ∧
    (_deduplicate_concepts l mc).length ≤ mc := by
  have hperm : (stableSortBy ltDepth (dedupFold l)).Perm (dedupFold l) :=
    stableSortBy_perm _ _
  refine ⟨?_, ?_, ?_⟩
  · have hnd : ((stableSortBy ltDepth (dedupFold l)).map (fun c => c.title)).Nodup :=
      ((hperm.map (fun c => c.title)).nodup_iff).mpr (nodup_title_dedupFold l)
    have hsub : (_deduplicate_concepts l mc).Sublist (stableSortBy ltDepth (dedupFold l)) :=
      List.take_sublist mc _
    exact hnd.sublist (hsub.map (fun c => c.title))
  · have hPW := stableSortBy_pairwise ltDepth_asymm ltDepth_negtrans
      (pairwise_true (dedupFold l))
    have hle : (stableSortBy ltDepth (dedupFold l)).Pairwise
        (fun a b : RetrievedConcept => a.depth ≤ b.depth) := by
      refine hPW.imp ?_
      intro a b hab
      have := hab.1
      simp only [ltDepth, decide_eq_false_iff_not] at this
      omega
    exact hle.sublist (List.take_sublist mc _)
  · simp only [_deduplicate_concepts, List.length_take]
    exact Nat.min_le_left _ _

/-- C3: for every call to `expand_seeds` (any graph, seeds, depths and
limits), the concepts list of the returned subgraph has no duplicate
titles, is sorted ascending by depth, and has at most `max_concepts`
entries. -/
theorem expand_seeds_concepts_invariants (g : GraphDB) (seeds : List String)
    (pd rd mc me : Nat) :
    ((expand_seeds g seeds pd rd mc me).concepts.map (fun c => c.title)).Nodup ∧
    (expand_seeds g seeds pd rd mc me).concepts.Pairwise (fun a b => a.depth ≤ b.depth) ∧
    (expand_seeds g seeds pd rd mc me).concepts.length ≤ mc :=
  dedup_concepts_invariants _ mc

/-- C4: when lowest-depth-wins deduplication leaves more than
`max_concepts` entries, `_deduplicate_concepts` keeps exactly
`max_concepts` of them, and every retained entry beats every dropped
entry: it has strictly smaller depth, or equal depth and an earlier
first-seen position (seeds were appended before prerequisites before
related concepts). -/
theorem dedup_truncation_exact (l : List RetrievedConcept) (mc : Nat)
    (h : mc < (dedupFold l).length) :
    (_deduplicate_concepts l mc).length = mc ∧
    (∀ x ∈ _deduplicate_concepts l mc, x ∈ dedupFold l) ∧
    (∀ x ∈ _deduplicate_concepts l mc, ∀ y ∈ dedupFold l,
      y ∉ _deduplicate_concepts l mc →
        x.depth < y.depth ∨ (x.depth = y.depth ∧
          (dedupFold l).indexOf x < (dedupFold l).indexOf y)) := by
  have hperm : (stableSortBy ltDepth (dedupFold l)).Perm (dedupFold l) :=
    stableSortBy_perm _ _
  have hlen : (stableSortBy ltDepth (dedupFold l)).length = (dedupFold l).length :=
    hperm.length_eq
  have hnd : (dedupFold l).Nodup := nodup_dedupFold l
  have hPW := stableSortBy_pairwise ltDepth_asymm ltDepth_negtrans
    (pairwise_indexOf_of_nodup hnd)
  have htd : stableSortBy ltDepth (dedupFold l) =
      (stableSortBy ltDepth (dedupFold l)).take mc ++
        (stableSortBy ltDepth (dedupFold l)).drop mc :=
    (List.take_append_drop mc _).symm
  have hsep : ∀ x ∈ (stableSortBy ltDepth (dedupFold l)).take mc,
      ∀ y ∈ (stableSortBy ltDepth (dedupFold l)).drop mc,
        ltDepth y x = false ∧
          (ltDepth x y = false → (dedupFold l).indexOf x < (dedupFold l).indexOf y) := by
    have hPW' := htd ▸ hPW
    exact (List.pairwise_append.mp hPW').2.2
  refine ⟨?_, ?_, ?_⟩
  · simp only [_deduplicate_concepts, List.length_take]
    omega
  · intro x hx
    exact hperm.mem_iff.mp (List.take_subset mc _ hx)
  · intro x hx y hyd hyout
    have hys : y ∈ stableSortBy ltDepth (dedupFold l) := hperm.mem_iff.mpr hyd
    have hydrop : y ∈ (stableSortBy ltDepth (dedupFold l)).drop mc := by
      rcases List.mem_append.mp (htd ▸ hys) with h' | h'
      · exact absurd h' hyout
      · exact h'
    have hT := hsep x hx y hydrop
    have h1 : ¬ y.depth < x.depth := by
      have := hT.1
      simpa [ltDepth] using this
    rcases Nat.lt_or_ge x.depth y.depth with hlt | hge
    · exact Or.inl hlt
    · refine Or.inr ⟨by omega, hT.2 ?_⟩
      simp only [ltDepth, decide_eq_false_iff_not]
      omega

/-- Witness for C4 at a concrete two-element list truncated to one. -/
theorem dedup_truncation_exact_witness :
    1 < (dedupFold exDedupList).length ∧
    ((_deduplicate_concepts exDedupList 1).length = 1 ∧
    (∀ x ∈ _deduplicate_concepts exDedupList 1, x ∈ dedupFold exDedupList) ∧
    (∀ x ∈ _deduplicate_concepts exDedupList 1, ∀ y ∈ dedupFold exDedupList,
      y ∉ _deduplicate_concepts exDedupList 1 →
        x.depth < y.depth ∨ (x.depth = y.depth ∧
          (dedupFold exDedupList).indexOf x < (dedupFold exDedupList).indexOf y))) :=
  ⟨by decide, dedup_truncation_exact exDedupList 1 (by decide)⟩

/-! ### Generic fold and membership helpers -/

theorem foldl_preserve {β γ : Type _} {step : List β → γ → List β} {P : β → Prop} :
    ∀ (l : List γ) (acc : List β),
      (∀ c ∈ l, ∀ acc', (∀ y ∈ acc', P y) → ∀ x ∈ step acc' c, P x) →
      (∀ y ∈ acc, P y) → ∀ x ∈ l.foldl step acc, P x := by
  intro l
  induction l with
  | nil => intro acc _ hacc x hx; exact hacc x hx
  | cons c cs ih =>
    intro acc hs hacc x hx
    exact ih (step acc c)
      (fun c' hc' => hs c' (List.mem_cons_of_mem c hc'))
      (hs c (by simp) acc hacc) x hx

theorem mem_foldr_append {β γ : Type _} {l : List β} {f : β → List γ} {x : γ} :
    (x ∈ l.foldr (fun e acc => f e ++ acc) []) ↔ ∃ e ∈ l, x ∈ f e := by
  induction l with
  | nil => simp
  | cons e es ih =>
    simp only [List.foldr_cons, List.mem_append, ih, List.mem_cons]
    constructor
    · rintro (h | ⟨e', he', hx⟩)
      · exact ⟨e, Or.inl rfl, h⟩
      · exact ⟨e', Or.inr he', hx⟩
    · rintro ⟨e', he' | he', hx⟩
      · exact Or.inl (he' ▸ hx)
      · exact Or.inr ⟨e', he', hx⟩

theorem mem_pyAppendNew [DecidableEq α] {ts : List α} :
    ∀ {res : List α} {x : α}, (x ∈ pyAppendNew res ts ↔ x ∈ res ∨ x ∈ ts) := by
  induction ts with
  | nil => intro res x; simp [pyAppendNew]
  | cons t ts ih =>
    intro res x
    have hstep : pyAppendNew res (t :: ts) =
        pyAppendNew (if t ∈ res then res else res ++ [t]) ts := rfl
    rw [hstep]
    by_cases h : t ∈ res
    · rw [if_pos h, ih]
      have hx : x = t → x ∈ res := fun e => e ▸ h
      simp only [List.mem_cons]
      tauto
    · rw [if_neg h, ih]
      simp only [List.mem_append, List.mem_cons, List.mem_singleton]
      tauto

theorem nodup_pyAppendNew [DecidableEq α] {ts : List α} :
    ∀ {res : List α}, res.Nodup → (pyAppendNew res ts).Nodup := by
  induction ts with
  | nil => intro res h; exact h
  | cons t ts ih =>
    intro res h
    have hstep : pyAppendNew res (t :: ts) =
        pyAppendNew (if t ∈ res then res else res ++ [t]) ts := rfl
    rw [hstep]
    by_cases hm : t ∈ res
    · rw [if_pos hm]; exact ih h
    · rw [if_neg hm]
      refine ih ?_
      simp [List.nodup_append, h, hm]

theorem pyAppendNew_eq_self [DecidableEq α] {ts : List α} :
    ∀ {res : List α}, (∀ t ∈ ts, t ∈ res) → pyAppendNew res ts = res := by
  induction ts with
  | nil => intro res _; rfl
  | cons t ts ih =>
    intro res hall
    have hstep : pyAppendNew res (t :: ts) =
        pyAppendNew (if t ∈ res then res else res ++ [t]) ts := rfl
    rw [hstep, if_pos (hall t (by simp))]
    exact ih (fun t' ht' => hall t' (List.mem_cons_of_mem t ht'))

/-! ### Per-stage membership lemmas -/

theorem mem_seed_concepts {g : GraphDB} {titles : List String} {c : RetrievedConcept}
    (hc : c ∈ _get_seed_concepts g titles) :
    c.depth = 0 ∧ c.relation_to_seed = "seed" ∧
    ∃ n : ConceptNode, findConcept g c.title = some n ∧
      c.definition = pyOr n.definition "" ∧ c.difficulty = pyOr n.difficulty "unknown" := by
  rcases List.mem_filterMap.mp hc with ⟨t, _, hsome⟩
  rcases Option.map_eq_some'.mp hsome with ⟨n, hfind, rfl⟩
  have ht' : n.title = t := by
    have := List.find?_some hfind
    simpa using this
  refine ⟨rfl, rfl, n, ?_, rfl, rfl⟩
  show findConcept g n.title = some n
  rw [ht']
  exact hfind

theorem prereqPathsTo_length (g : GraphDB) :
    ∀ (fuel : Nat) (t : String) (used : List Edge) (p : List String),
      p ∈ prereqPathsTo g fuel t used → 2 ≤ p.length ∧ p.length ≤ fuel + 1 := by
  intro fuel
  induction fuel with
  | zero => intro t used p hp; simp [prereqPathsTo] at hp
  | succ fuel ih =>
    intro t used p hp
    rw [prereqPathsTo] at hp
    rcases mem_foldr_append.mp hp with ⟨e, _, hx⟩
    rcases List.mem_cons.mp hx with rfl | hx'
    · simp
    · rcases List.mem_map.mp hx' with ⟨p', hp', rfl⟩
      have hb := ih e.src (e :: used) p' hp'
      simp only [List.length_append, List.length_cons, List.length_nil]
      omega

theorem prereqRows_dist_bound {g : GraphDB} {seeds : List String} {d : Nat}
    {r : String × String × Nat} (hr : r ∈ prereqRows g seeds d) :
    1 ≤ r.2.2 ∧ r.2.2 ≤ d := by
  unfold prereqRows at hr
  rcases List.mem_flatMap.mp hr with ⟨s, _, hr'⟩
  split at hr'
  · rcases List.mem_filterMap.mp hr' with ⟨p, hp, hsome⟩
    split at hsome
    · have hb := prereqPathsTo_length g d s [] p hp
      rcases Option.some.inj hsome with rfl
      simp only
      omega
    · exact absurd hsome (by simp)
  · exact absurd hr' (by simp)

theorem groupMinDist_dist_bound {d : Nat} {rows : List (String × String × Nat)}
    (hb : ∀ r ∈ rows, 1 ≤ r.2.2 ∧ r.2.2 ≤ d) :
    ∀ r ∈ groupMinDist rows, 1 ≤ r.2.2 ∧ r.2.2 ≤ d := by
  unfold groupMinDist
  refine foldl_preserve rows [] ?_ (by simp)
  intro r hrmem acc hacc x hx
  split at hx
  · rcases List.mem_map.mp hx with ⟨y, hy, rfl⟩
    by_cases hcy : y.1 = r.1 ∧ y.2.1 = r.2.1 ∧ r.2.2 < y.2.2
    · simp only [hcy, if_true]
      exact ⟨(hb r hrmem).1, (hb r hrmem).2⟩
    · simp only [hcy, if_false]
      exact hacc y hy
  · rcases List.mem_append.mp hx with h' | h'
    · exact hacc x h'
    · rw [List.mem_singleton.mp h']
      exact hb r hrmem

theorem mem_prerequisites {g : GraphDB} {seeds : List String} {d : Nat}
    {c : RetrievedConcept} (hc : c ∈ _get_prerequisites g seeds d) :
    c.relation_to_seed = "prerequisite" ∧ 1 ≤ c.depth ∧ c.depth ≤ d := by
  unfold _get_prerequisites at hc
  rcases List.mem_map.mp hc with ⟨r, hr, rfl⟩
  have hr' : r ∈ groupMinDist (prereqRows g seeds d) := (stableSortBy_perm _ _).mem_iff.mp hr
  have hb := groupMinDist_dist_bound (fun r' hr' => prereqRows_dist_bound hr') r hr'
  exact ⟨rfl, hb.1, hb.2⟩

theorem peerPathsFrom_head (g : GraphDB) (fuel : Nat) (t : String) (used : List Edge)
    (p : List (String × String)) (hp : p ∈ peerPathsFrom g fuel t used) :
    p ≠ [] ∧ pathFirstRel p ∈ peerRels := by
  cases fuel with
  | zero => simp [peerPathsFrom] at hp
  | succ fuel =>
    rw [peerPathsFrom] at hp
    rcases mem_foldr_append.mp hp with ⟨e, he, hx⟩
    have hrel : e.rel ∈ peerRels := by
      have h2 := (List.mem_filter.mp he).2
      simp only [Bool.and_eq_true, decide_eq_true_eq] at h2
      exact h2.1
    rcases List.mem_append.mp hx with hx' | hx' <;>
    · split at hx'
      · rcases List.mem_cons.mp hx' with rfl | hx''
        · exact ⟨by simp, hrel⟩
        · rcases List.mem_map.mp hx'' with ⟨p', _, rfl⟩
          exact ⟨by simp, hrel⟩
      · exact absurd hx' (by simp)

theorem mem_related_spec {g : GraphDB} {seeds : List String} {d : Nat}
    {c : RetrievedConcept} (hc : c ∈ _get_related_concepts g seeds d) :
    c.depth = 1 ∧ ∃ s, s ∈ seeds ∧ ∃ p, p ∈ peerPathsFrom g d s [] ∧ p ≠ [] ∧
      pathFirstRel p ∈ peerRels ∧ c.relation_to_seed = strLower (pathFirstRel p) ∧
      c.title = pathEnd p ∧ c.seed_concept = s := by
  unfold _get_related_concepts at hc
  rcases List.mem_map.mp hc with ⟨r, hr, rfl⟩
  have hr' : r ∈ relatedRows g seeds d := by
    have := mem_pyAppendNew.mp hr
    simpa using this
  unfold relatedRows at hr'
  rcases List.mem_flatMap.mp hr' with ⟨s, hs, hrr⟩
  split at hrr
  · rcases List.mem_filterMap.mp hrr with ⟨p, hp, hsome⟩
    split at hsome
    · rcases Option.some.inj hsome with rfl
      have hh := peerPathsFrom_head g d s [] p hp
      exact ⟨rfl, s, hs, p, hp, hh.1, hh.2, rfl, rfl, rfl⟩
    · exact absurd hsome (by simp)
  · exact absurd hrr (by simp)

theorem mem_deduplicate {l : List RetrievedConcept} {mc : Nat} {x : RetrievedConcept}
    (hx : x ∈ _deduplicate_concepts l mc) : x ∈ l :=
  mem_dedupFold ((stableSortBy_perm _ _).mem_iff.mp (List.take_subset mc _ hx))

theorem mem_examples_spec {g : GraphDB} {titles : List String} {mp : Nat}
    {e : RetrievedExample} (he : e ∈ _get_examples g titles mp) :
    ∃ en : ExampleNode, (en, e.concept) ∈ g.exemplifies ∧ e.text = en.text ∧
      e.example_type = pyOr en.example_type "unknown" ∧
      e.source_url = pyOr en.source_url "" := by
  unfold _get_examples at he
  rcases List.mem_flatMap.mp he with ⟨t, _, he'⟩
  split at he'
  · rcases List.mem_map.mp he' with ⟨en, hen, rfl⟩
    have hen' : en ∈ (g.exemplifies.filter (fun pr => decide (pr.2 = t))).map
        (fun pr => pr.1) :=
      (stableSortBy_perm _ _).mem_iff.mp (List.take_subset mp _ hen)
    rcases List.mem_map.mp hen' with ⟨pr, hpr, rfl⟩
    have hmem := (List.mem_filter.mp hpr).1
    have heq : pr.2 = t := by
      have := (List.mem_filter.mp hpr).2
      simpa using this
    refine ⟨pr.1, ?_, rfl, rfl, rfl⟩
    show (pr.1, t) ∈ g.exemplifies
    rw [← heq]
    simpa using hmem
  · exact absurd he' (by simp)

theorem resourceRows_spec {g : GraphDB} {titles : List String}
    {row : String × Option String × List String} (hrow : row ∈ resourceRows g titles) :
    ∃ rn : ResourceNode, ∃ t : String, (rn, t) ∈ g.explains ∧
      row.1 = rn.url ∧ row.2.1 = rn.rtype := by
  unfold resourceRows at hrow
  refine @foldl_preserve _ _ _
    (fun row => ∃ rn : ResourceNode, ∃ t : String, (rn, t) ∈ g.explains ∧
      row.1 = rn.url ∧ row.2.1 = rn.rtype) _ [] ?_ (by simp) row hrow
  intro pr hpr acc hacc x hx
  rcases List.mem_flatMap.mp hpr with ⟨t, _, hpr'⟩
  split at hpr'
  · rcases List.mem_map.mp hpr' with ⟨pr0, hpr0, rfl⟩
    have hmem := (List.mem_filter.mp hpr0).1
    have heq : pr0.2 = t := by
      have := (List.mem_filter.mp hpr0).2
      simpa using this
    split at hx
    · rcases List.mem_map.mp hx with ⟨y, hy, rfl⟩
      by_cases hcy : y.1 = pr0.1.url ∧ y.2.1 = pr0.1.rtype
      · rw [if_pos hcy]
        rcases hacc y hy with ⟨rn, t', hrnt, h1, h2⟩
        exact ⟨rn, t', hrnt, h1, h2⟩
      · rw [if_neg hcy]
        exact hacc y hy
    · rcases List.mem_append.mp hx with h' | h'
      · exact hacc x h'
      · rw [List.mem_singleton.mp h']
        refine ⟨pr0.1, t, ?_, rfl, rfl⟩
        rw [← heq]
        simpa using hmem
  · exact absurd hpr' (by simp)

theorem mem_resources_spec {g : GraphDB} {titles : List String}
    {r : RetrievedResource} (hr : r ∈ _get_resources g titles) :
    ∃ rn : ResourceNode, ∃ t : String, (rn, t) ∈ g.explains ∧
      r.url = rn.url ∧ r.resource_type = pyOr rn.rtype "unknown" := by
  unfold _get_resources at hr
  refine @foldl_preserve _ _ _
    (fun r => ∃ rn : ResourceNode, ∃ t : String, (rn, t) ∈ g.explains ∧
      r.url = rn.url ∧ r.resource_type = pyOr rn.rtype "unknown") _ [] ?_ (by simp) r hr
  intro row hrow acc hacc x hx
  split at hx
  · exact hacc x hx
  · rcases List.mem_append.mp hx with h' | h'
    · exact hacc x h'
    · rw [List.mem_singleton.mp h']
      rcases resourceRows_spec hrow with ⟨rn, t, hrnt, h1, h2⟩
      exact ⟨rn, t, hrnt, by simp [h1], by simp [h2]⟩

/-! ### Claim theorems about the expansion stages -/

/-- C5: every concept produced by the peer-relation traversal
(`_get_related_concepts`) carries `depth = 1` whatever the traversal
depth, and its `relation_to_seed` is the lower-cased relation type of
the first traversed edge of the peer path that produced it (the edge
adjacent to the seed, Cypher `type(r[0])`). -/
theorem related_concepts_fixed_depth (g : GraphDB) (seeds : List String) (d : Nat) :
    ∀ c ∈ _get_related_concepts g seeds d,
      c.depth = 1 ∧ ∃ s, s ∈ seeds ∧ ∃ p, p ∈ peerPathsFrom g d s [] ∧ p ≠ [] ∧
        pathFirstRel p ∈ peerRels ∧ c.relation_to_seed = strLower (pathFirstRel p) ∧
        c.title = pathEnd p ∧ c.seed_concept = s :=
  fun _ hc => mem_related_spec hc

/-- Witness for C5: the sibling of seed `A` in `exRelGraph`. -/
theorem related_concepts_fixed_depth_witness :
    (⟨"S", "", "unknown", 1, "sibling", "A"⟩ : RetrievedConcept).depth = 1 ∧
    ∃ s, s ∈ ["A"] ∧ ∃ p, p ∈ peerPathsFrom exRelGraph 1 s [] ∧ p ≠ [] ∧
      pathFirstRel p ∈ peerRels ∧
      (⟨"S", "", "unknown", 1, "sibling", "A"⟩ : RetrievedConcept).relation_to_seed =
        strLower (pathFirstRel p) ∧
      (⟨"S", "", "unknown", 1, "sibling", "A"⟩ : RetrievedConcept).title = pathEnd p ∧
      (⟨"S", "", "unknown", 1, "sibling", "A"⟩ : RetrievedConcept).seed_concept = s :=
  related_concepts_fixed_depth exRelGraph ["A"] 1 _ (by decide)

/-- C10: in every `expand_seeds` result, depth 0 is equivalent to the
`"seed"` tag; prerequisite-tagged entries have depth between 1 and
`prereq_depth`; peer-relation entries (any other tag) have depth exactly
1.  Deduplication preserves this because it keeps whole entries. -/
theorem expand_seeds_depth_iff_relation (g : GraphDB) (seeds : List String)
    (pd rd mc me : Nat) :
    ∀ c ∈ (expand_seeds g seeds pd rd mc me).concepts,
      (c.depth = 0 ↔ c.relation_to_seed = "seed") ∧
      (c.relation_to_seed = "prerequisite" → 1 ≤ c.depth ∧ c.depth ≤ pd) ∧
      (c.relation_to_seed ≠ "seed" → c.relation_to_seed ≠ "prerequisite" → c.depth = 1) := by
  intro c hc
  have hc' : c ∈ _get_seed_concepts g seeds ++ _get_prerequisites g seeds pd ++
      _get_related_concepts g seeds rd := mem_deduplicate hc
  rcases List.mem_append.mp hc' with h01 | h2
  · rcases List.mem_append.mp h01 with h0 | h1
    · rcases mem_seed_concepts h0 with ⟨hd, hrel, -⟩
      refine ⟨⟨fun _ => hrel, fun _ => hd⟩, ?_, fun hn _ => absurd hrel hn⟩
      intro hp
      exact absurd (hrel.symm.trans hp) (by decide)
    · rcases mem_prerequisites h1 with ⟨hrel, h1d, h2d⟩
      refine ⟨⟨?_, ?_⟩, fun _ => ⟨h1d, h2d⟩, fun _ hn => absurd hrel hn⟩
      · intro h0; exfalso; omega
      · intro hseed; exact absurd (hrel.symm.trans hseed) (by decide)
  · rcases mem_related_spec h2 with ⟨hd, s, hs, p, hp, hne, hfr, hrel, hti, hsc⟩
    have hlow : c.relation_to_seed = "is_a" ∨ c.relation_to_seed = "part_of" ∨
        c.relation_to_seed = "sibling" ∨ c.relation_to_seed = "contrasts_with" := by
      simp only [peerRels, List.mem_cons, List.not_mem_nil, or_false] at hfr
      rcases hfr with h | h | h | h
      · exact Or.inl (by rw [hrel, h]; decide)
      · exact Or.inr (Or.inl (by rw [hrel, h]; decide))
      · exact Or.inr (Or.inr (Or.inl (by rw [hrel, h]; decide)))
      · exact Or.inr (Or.inr (Or.inr (by rw [hrel, h]; decide)))
    refine ⟨⟨?_, ?_⟩, ?_, fun _ _ => hd⟩
    · intro h0; rw [hd] at h0; exact absurd h0 (by decide)
    · intro hseed
      rcases hlow with h | h | h | h <;> exact absurd (h.symm.trans hseed) (by decide)
    · intro hpre
      rcases hlow with h | h | h | h <;> exact absurd (h.symm.trans hpre) (by decide)

/-- Witness for C10: the depth-1 prerequisite entry of the
specification scenario. -/
theorem expand_seeds_depth_iff_relation_witness :
    ((⟨"Derivatives", "d", "beginner", 1, "prerequisite", "Gradient Descent"⟩ :
        RetrievedConcept).depth = 0 ↔
      (⟨"Derivatives", "d", "beginner", 1, "prerequisite", "Gradient Descent"⟩ :
        RetrievedConcept).relation_to_seed = "seed") ∧
    ((⟨"Derivatives", "d", "beginner", 1, "prerequisite", "Gradient Descent"⟩ :
        RetrievedConcept).relation_to_seed = "prerequisite" →
      1 ≤ (⟨"Derivatives", "d", "beginner", 1, "prerequisite", "Gradient Descent"⟩ :
        RetrievedConcept).depth ∧
      (⟨"Derivatives", "d", "beginner", 1, "prerequisite", "Gradient Descent"⟩ :
        RetrievedConcept).depth ≤ 2) ∧
    ((⟨"Derivatives", "d", "beginner", 1, "prerequisite", "Gradient Descent"⟩ :
        RetrievedConcept).relation_to_seed ≠ "seed" →
      (⟨"Derivatives", "d", "beginner", 1, "prerequisite", "Gradient Descent"⟩ :
        RetrievedConcept).relation_to_seed ≠ "prerequisite" →
      (⟨"Derivatives", "d", "beginner", 1, "prerequisite", "Gradient Descent"⟩ :
        RetrievedConcept).depth = 1) :=
  expand_seeds_depth_iff_relation exGdGraph ["Gradient Descent"] 2 1 15 2
    ⟨"Derivatives", "d", "beginner", 1, "prerequisite", "Gradient Descent"⟩ (by decide)

/-- C7: with an empty semantic match list, `retrieve` short-circuits to
the defined empty result (empty seeds, empty subgraph in every field,
empty order), independently of the graph: the expansion and ordering
stages are never consulted.  This is a normal return value, not an
error. -/
theorem retrieve_no_matches (g : GraphDB) (q : String) (pd rd mc me : Nat) :
    retrieve g q [] pd rd mc me =
      { query := q
        semantic_matches := []
        seed_concepts := []
        subgraph := { seed_concepts := [], concepts := [], resources := [], examples := []
                      prereq_chain := [] }
        ordered_concepts := [] } := rfl

/-- Counterexample for C8: an example node with a missing `text`
property yields a retrieved example whose text is still missing
(`None`), not the empty string — only `example_type` and `source_url`
are defaulted. -/
theorem example_text_missing_counterexample :
    ((_get_examples exExampleGraph ["C"] 2).map (fun e => e.text) = [none]) ∧
    ¬ (∀ e ∈ _get_examples exExampleGraph ["C"] 2, e.text = some "") := by
  constructor
  · decide
  · decide

/-- C8 (amended): every record processed by the expansion stages gets
defined defaults for its missing tag/text properties — `"unknown"` for a
missing concept difficulty, example type or resource type (`pyOr none d
= d`), and the empty string for a missing concept definition or example
source URL — while a missing example `text` is passed through unchanged
(`e.text = en.text`) rather than defaulted; nothing aborts or
propagates an error. -/
theorem missing_property_defaults (g : GraphDB) (titles : List String) (mp : Nat) :
    (∀ c ∈ _get_seed_concepts g titles, ∃ n : ConceptNode,
      findConcept g c.title = some n ∧ c.definition = pyOr n.definition "" ∧
      c.difficulty = pyOr n.difficulty "unknown") ∧
    (∀ e ∈ _get_examples g titles mp, ∃ en : ExampleNode,
      (en, e.concept) ∈ g.exemplifies ∧ e.text = en.text ∧
      e.example_type = pyOr en.example_type "unknown" ∧
      e.source_url = pyOr en.source_url "") ∧
    (∀ r ∈ _get_resources g titles, ∃ rn : ResourceNode, ∃ t : String,
      (rn, t) ∈ g.explains ∧ r.url = rn.url ∧
      r.resource_type = pyOr rn.rtype "unknown") := by
  refine ⟨?_, ?_, ?_⟩
  · intro c hc; exact (mem_seed_concepts hc).2.2
  · intro e he; exact mem_examples_spec he
  · intro r hr; exact mem_resources_spec hr

/-- Witness for C8 (amended) at the propertyless example node. -/
theorem missing_property_defaults_witness :
    ∃ en : ExampleNode,
      (en, (⟨none, "unknown", "C", ""⟩ : RetrievedExample).concept) ∈
        exExampleGraph.exemplifies ∧
      (⟨none, "unknown", "C", ""⟩ : RetrievedExample).text = en.text ∧
      (⟨none, "unknown", "C", ""⟩ : RetrievedExample).example_type =
        pyOr en.example_type "unknown" ∧
      (⟨none, "unknown", "C", ""⟩ : RetrievedExample).source_url =
        pyOr en.source_url "" :=
  (missing_property_defaults exExampleGraph ["C"] 2).2.1
    ⟨none, "unknown", "C", ""⟩ (by decide)

/-! ### Prerequisite chains (C6) -/

theorem foldl_best_mem (p : List String) (ps : List (List String)) :
    (ps.foldl (fun best q => if best.length < q.length then q else best) p) ∈ p :: ps ∧
    ∀ q ∈ p :: ps, q.length ≤
      (ps.foldl (fun best q => if best.length < q.length then q else best) p).length := by
  induction ps generalizing p with
  | nil => simp
  | cons q qs ih =>
    have hstep : (q :: qs).foldl (fun best r => if best.length < r.length then r else best) p =
        qs.foldl (fun best r => if best.length < r.length then r else best)
          (if p.length < q.length then q else p) := rfl
    rw [hstep]
    rcases ih (if p.length < q.length then q else p) with ⟨hmem, hmax⟩
    have hite : p.length ≤ (if p.length < q.length then q else p).length ∧
        q.length ≤ (if p.length < q.length then q else p).length := by
      by_cases h : p.length < q.length
      · rw [if_pos h]; omega
      · rw [if_neg h]; omega
    have hhead : (if p.length < q.length then q else p).length ≤
        (qs.foldl (fun best r => if best.length < r.length then r else best)
          (if p.length < q.length then q else p)).length :=
      hmax _ (List.mem_cons_self _ _)
    constructor
    · rcases List.mem_cons.mp hmem with h' | h'
      · rw [h']
        by_cases h : p.length < q.length
        · rw [if_pos h]; exact List.mem_cons_of_mem p (List.mem_cons_self q qs)
        · rw [if_neg h]; exact List.mem_cons_self p _
      · exact List.mem_cons_of_mem p (List.mem_cons_of_mem q h')
    · intro r hr
      rcases List.mem_cons.mp hr with rfl | hr'
      · omega
      · rcases List.mem_cons.mp hr' with rfl | hr''
        · omega
        · exact hmax r (List.mem_cons_of_mem _ hr'')

theorem pickLongest_mem_max {ps : List (List String)} {p : List String}
    (h : pickLongest ps = some p) : p ∈ ps ∧ ∀ q ∈ ps, q.length ≤ p.length := by
  cases ps with
  | nil => simp [pickLongest] at h
  | cons a as =>
    simp only [pickLongest, Option.some.injEq] at h
    subst h
    exact foldl_best_mem a as

theorem pickLongest_eq_none {ps : List (List String)} : pickLongest ps = none ↔ ps = [] := by
  cases ps <;> simp [pickLongest]

theorem getD_map_of_lt {α β : Type _} (f : α → β) (l : List α) (i : Nat)
    (hi : i < l.length) (d : α) (d' : β) : (l.map f).getD i d' = f (l.getD i d) := by
  rw [List.getD_eq_getElem _ _ (by simpa using hi), List.getD_eq_getElem _ _ hi]
  simp

/-- C6: `_get_prereq_chains` returns exactly one chain per seed, in seed
order; the chain for a seed is a maximal-length prerequisite path (of at
most `prereq_depth` hops) ending at that seed — no candidate path is
longer — and the singleton `[seed]` when no prerequisite path exists. -/
theorem prereq_chains_spec (g : GraphDB) (seeds : List String) (d : Nat) :
    (_get_prereq_chains g seeds d).length = seeds.length ∧
    ∀ i, i < seeds.length →
      (chainPaths g d (seeds.getD i "") = [] →
        (_get_prereq_chains g seeds d).getD i [] = [seeds.getD i ""]) ∧
      (chainPaths g d (seeds.getD i "") ≠ [] →
        (_get_prereq_chains g seeds d).getD i [] ∈ chainPaths g d (seeds.getD i "") ∧
        ∀ p ∈ chainPaths g d (seeds.getD i ""),
          p.length ≤ ((_get_prereq_chains g seeds d).getD i []).length) := by
  constructor
  · simp [_get_prereq_chains]
  · intro i hi
    have hget : (_get_prereq_chains g seeds d).getD i [] =
        (match pickLongest (chainPaths g d (seeds.getD i "")) with
          | some p => p
          | none => [seeds.getD i ""]) :=
      getD_map_of_lt _ seeds i hi "" []
    cases hpl : pickLongest (chainPaths g d (seeds.getD i "")) with
    | none =>
      refine ⟨fun _ => ?_, fun hne => absurd (pickLongest_eq_none.mp hpl) hne⟩
      rw [hget, hpl]
    | some p =>
      rcases pickLongest_mem_max hpl with ⟨hm, hb⟩
      refine ⟨fun he => ?_, fun _ => ?_⟩
      · rw [he] at hpl
        exact absurd hpl (by simp [pickLongest])
      · rw [hget, hpl]
        exact ⟨hm, hb⟩

/-- Witness for C6 on the specification scenario: the chain for seed
`Gradient Descent` is a maximal candidate path. -/
theorem prereq_chains_spec_witness :
    chainPaths exGdGraph 2 ((["Gradient Descent"] : List String).getD 0 "") ≠ [] ∧
    (_get_prereq_chains exGdGraph ["Gradient Descent"] 2).getD 0 [] ∈
      chainPaths exGdGraph 2 ((["Gradient Descent"] : List String).getD 0 "") ∧
    ∀ p ∈ chainPaths exGdGraph 2 ((["Gradient Descent"] : List String).getD 0 ""),
      p.length ≤ ((_get_prereq_chains exGdGraph ["Gradient Descent"] 2).getD 0 []).length :=
  ⟨by decide,
    ((prereq_chains_spec exGdGraph ["Gradient Descent"] 2).2 0 (by decide)).2 (by decide)⟩

/-! ### Hybrid retriever seed assembly (C9) -/

theorem seed_fold_eq (explicit : List String) (ms : List SemanticMatch) :
    ms.foldl (fun acc m => if m.title ∈ acc then acc else acc ++ [m.title]) explicit =
      pyAppendNew explicit (ms.map (fun m => m.title)) := by
  rw [pyAppendNew, List.foldl_map]

theorem pyAppendNew_eq_append_dedupNotIn [DecidableEq α] :
    ∀ (ts pre : List α), pyAppendNew pre ts = pre ++ dedupNotIn pre ts := by
  intro ts
  induction ts with
  | nil => intro pre; simp [pyAppendNew, dedupNotIn]
  | cons t ts ih =>
    intro pre
    have hstep : pyAppendNew pre (t :: ts) =
        pyAppendNew (if t ∈ pre then pre else pre ++ [t]) ts := rfl
    rw [hstep]
    by_cases h : t ∈ pre
    · rw [if_pos h, ih pre]
      simp [dedupNotIn, h]
    · rw [if_neg h, ih (pre ++ [t])]
      simp [dedupNotIn, h]

theorem dedupNotIn_eq_keepFirsts [DecidableEq α] :
    ∀ (ts pre seen : List α),
      dedupNotIn (pre ++ seen) ts =
        keepFirsts seen (ts.filter (fun t => !(decide (t ∈ pre)))) := by
  intro ts
  induction ts with
  | nil => intro pre seen; simp [dedupNotIn, keepFirsts]
  | cons t ts ih =>
    intro pre seen
    by_cases hp : t ∈ pre
    · have hm : t ∈ pre ++ seen := List.mem_append_left seen hp
      have h1 : dedupNotIn (pre ++ seen) (t :: ts) = dedupNotIn (pre ++ seen) ts := by
        simp [dedupNotIn, hm]
      have h2 : (t :: ts).filter (fun t' => !(decide (t' ∈ pre))) =
          ts.filter (fun t' => !(decide (t' ∈ pre))) := by
        simp [List.filter_cons, hp]
      rw [h1, h2]
      exact ih pre seen
    · by_cases hs : t ∈ seen
      · have hm : t ∈ pre ++ seen := List.mem_append_right pre hs
        have h1 : dedupNotIn (pre ++ seen) (t :: ts) = dedupNotIn (pre ++ seen) ts := by
          simp [dedupNotIn, hm]
        have h2 : (t :: ts).filter (fun t' => !(decide (t' ∈ pre))) =
            t :: ts.filter (fun t' => !(decide (t' ∈ pre))) := by
          simp [List.filter_cons, hp]
        have h3 : keepFirsts seen (t :: ts.filter (fun t' => !(decide (t' ∈ pre)))) =
            keepFirsts seen (ts.filter (fun t' => !(decide (t' ∈ pre)))) := by
          simp [keepFirsts, hs]
        rw [h1, h2, h3]
        exact ih pre seen
      · have hm : t ∉ pre ++ seen := by simp [hp, hs]
        have h1 : dedupNotIn (pre ++ seen) (t :: ts) =
            t :: dedupNotIn ((pre ++ seen) ++ [t]) ts := by
          simp [dedupNotIn, hm]
        have h2 : (t :: ts).filter (fun t' => !(decide (t' ∈ pre))) =
            t :: ts.filter (fun t' => !(decide (t' ∈ pre))) := by
          simp [List.filter_cons, hp]
        have h3 : keepFirsts seen (t :: ts.filter (fun t' => !(decide (t' ∈ pre)))) =
            t :: keepFirsts (seen ++ [t]) (ts.filter (fun t' => !(decide (t' ∈ pre)))) := by
          simp [keepFirsts, hs]
        rw [h1, h2, h3, List.append_assoc]
        exact congrArg (fun l => t :: l) (ih pre (seen ++ [t]))

/-- C9: `retrieve_with_explicit_concepts` passes to graph expansion the
explicit titles first, in their given order, followed by the semantic
match titles not already present among the explicit titles, in the
gateway's descending-score order (the first match wins when the same
title occurs more than once among the matches); expansion, ordering and
assembly then proceed exactly as in `retrieve`. -/
theorem explicit_seed_assembly (g : GraphDB) (q : String) (explicit : List String)
    (sm : List SemanticMatch) (pd rd mc me : Nat) :
    (retrieve_with_explicit_concepts g q explicit sm pd rd mc me).seed_concepts =
      explicit ++ keepFirsts []
        ((sm.map (fun m => m.title)).filter (fun t => !(decide (t ∈ explicit)))) ∧
    (retrieve_with_explicit_concepts g q explicit sm pd rd mc me).subgraph =
      expand_seeds g
        (retrieve_with_explicit_concepts g q explicit sm pd rd mc me).seed_concepts
        pd rd mc me ∧
    (retrieve_with_explicit_concepts g q explicit sm pd rd mc me).ordered_concepts =
      get_topological_order g
        (retrieve_with_explicit_concepts g q explicit sm pd rd mc me).subgraph.concepts ∧
    (retrieve_with_explicit_concepts g q explicit sm pd rd mc me).query = q ∧
    (retrieve_with_explicit_concepts g q explicit sm pd rd mc me).semantic_matches =
      sm := by
  refine ⟨?_, rfl, rfl, rfl, rfl⟩
  show sm.foldl (fun acc m => if m.title ∈ acc then acc else acc ++ [m.title])
      explicit = _
  rw [seed_fold_eq, pyAppendNew_eq_append_dedupNotIn]
  have h3 := dedupNotIn_eq_keepFirsts (sm.map (fun m => m.title)) explicit []
  rw [List.append_nil] at h3
  rw [h3]

/-! ### Kahn loop: counter bookkeeping -/

theorem dget_nil (t : String) : dget [] t = 0 := rfl

theorem dget_cons (p : String × Int) (m : List (String × Int)) (t : String) :
    dget (p :: m) t = if p.1 = t then p.2 else dget m t := by
  by_cases h : p.1 = t
  · simp [dget, List.find?_cons, h]
  · simp [dget, List.find?_cons, h]

theorem dget_of_no_key {m : List (String × Int)} {t : String}
    (h : ∀ p ∈ m, p.1 ≠ t) : dget m t = 0 := by
  induction m with
  | nil => rfl
  | cons p ps ih =>
    rw [dget_cons, if_neg (h p (by simp))]
    exact ih (fun p' hp' => h p' (List.mem_cons_of_mem p hp'))

theorem any_key_false {m : List (String × Int)} {t : String}
    (h : m.any (fun p => decide (p.1 = t)) = false) : ∀ p ∈ m, p.1 ≠ t := by
  intro p hp
  have := List.any_eq_false.mp h p hp
  simpa using this

theorem dget_dupdate_self (m : List (String × Int)) (t : String) (f : Int → Int) :
    dget (dupdate m t f) t = f (dget m t) := by
  unfold dupdate
  cases hany : m.any (fun p => decide (p.1 = t)) with
  | false =>
    simp only [hany, Bool.false_eq_true, if_false]
    have h0 : dget m t = 0 := dget_of_no_key (any_key_false hany)
    rw [h0]
    induction m with
    | nil => simp [dget_cons]
    | cons p ps ih =>
      have hp : p.1 ≠ t := any_key_false hany p (by simp)
      have hany' : ps.any (fun p => decide (p.1 = t)) = false := by
        rcases List.any_eq_false.mp (by exact hany) with -
        apply List.any_eq_false.mpr
        intro p' hp'
        simpa using any_key_false hany p' (List.mem_cons_of_mem p hp')
      have h0' : dget ps t = 0 := dget_of_no_key (any_key_false hany')
      rw [List.cons_append, dget_cons, if_neg hp]
      exact ih hany' h0'
  | true =>
    simp only [hany, if_true]
    induction m with
    | nil => simp at hany
    | cons p ps ih =>
      by_cases hp : p.1 = t
      · rw [List.map_cons, if_pos hp, dget_cons, dget_cons]
        simp [hp]
      · rw [List.map_cons, if_neg hp, dget_cons, if_neg hp, dget_cons, if_neg hp]
        have hany' : ps.any (fun p => decide (p.1 = t)) = true := by
          rcases List.any_eq_true.mp hany with ⟨p', hp', hdec⟩
          rcases List.mem_cons.mp hp' with rfl | hmem
          · exact absurd (of_decide_eq_true hdec) hp
          · exact List.any_eq_true.mpr ⟨p', hmem, hdec⟩
        exact ih hany'

theorem dget_dupdate_ne (m : List (String × Int)) (t t' : String) (f : Int → Int)
    (h : t' ≠ t) : dget (dupdate m t f) t' = dget m t' := by
  unfold dupdate
  cases hany : m.any (fun p => decide (p.1 = t)) with
  | false =>
    simp only [hany, Bool.false_eq_true, if_false]
    induction m with
    | nil => simp [dget_cons, dget_nil, Ne.symm h]
    | cons p ps ih =>
      rw [List.cons_append, dget_cons, dget_cons]
      by_cases hp : p.1 = t'
      · simp [hp]
      · rw [if_neg hp, if_neg hp]
        apply ih
        apply List.any_eq_false.mpr
        intro p' hp'
        simpa using any_key_false hany p' (List.mem_cons_of_mem p hp')
  | true =>
    simp only [hany, if_true]
    clear hany
    induction m with
    | nil => rfl
    | cons p ps ih =>
      rw [List.map_cons, dget_cons, dget_cons]
      by_cases hp : p.1 = t
      · rw [if_pos hp]
        have : p.1 ≠ t' := by rw [hp]; exact Ne.symm h
        simp only [this, if_false, if_neg this]
        exact ih
      · rw [if_neg hp]
        by_cases hp' : p.1 = t'
        · simp [hp']
        · rw [if_neg hp', if_neg hp']
          exact ih

theorem intSum_nil : intSum [] = 0 := rfl

theorem intSum_cons (p : String × Int) (m : List (String × Int)) :
    intSum (p :: m) = p.2.toNat + intSum m := rfl

theorem intSum_append (m1 m2 : List (String × Int)) :
    intSum (m1 ++ m2) = intSum m1 + intSum m2 := by
  induction m1 with
  | nil => simp [intSum_nil]
  | cons p ps ih => simp [intSum_cons, ih]; omega

theorem intSum_map_dec_le (m : List (String × Int)) (n : String) :
    intSum (m.map (fun p => if p.1 = n then (p.1, p.2 - 1) else p)) ≤ intSum m := by
  induction m with
  | nil => simp
  | cons p ps ih =>
    rw [List.map_cons, intSum_cons, intSum_cons]
    by_cases hp : p.1 = n
    · rw [if_pos hp]
      have : (p.2 - 1).toNat ≤ p.2.toNat := by omega
      simp only
      omega
    · rw [if_neg hp]
      omega

theorem intSum_map_dec_push (m : List (String × Int)) (n : String)
    (hany : m.any (fun p => decide (p.1 = n)) = true) :
    intSum (m.map (fun p => if p.1 = n then (p.1, p.2 - 1) else p)) +
      (if dget m n = 1 then 1 else 0) ≤ intSum m := by
  induction m with
  | nil => simp at hany
  | cons p ps ih =>
    rw [List.map_cons, intSum_cons, intSum_cons, dget_cons]
    by_cases hp : p.1 = n
    · rw [if_pos hp, if_pos hp]
      have hle := intSum_map_dec_le ps n
      simp only
      by_cases h1 : p.2 = 1
      · rw [if_pos h1]
        omega
      · rw [if_neg h1]
        omega
    · rw [if_neg hp, if_neg hp]
      have hany' : ps.any (fun p => decide (p.1 = n)) = true := by
        rcases List.any_eq_true.mp hany with ⟨p', hp', hdec⟩
        rcases List.mem_cons.mp hp' with rfl | hmem
        · exact absurd (of_decide_eq_true hdec) hp
        · exact List.any_eq_true.mpr ⟨p', hmem, hdec⟩
      have := ih hany'
      omega

theorem dupdate_dec_measure (m : List (String × Int)) (n : String) :
    intSum (dupdate m n (fun v => v - 1)) +
      (if dget (dupdate m n (fun v => v - 1)) n = 0 then 1 else 0) ≤ intSum m := by
  have hself : dget (dupdate m n (fun v => v - 1)) n = dget m n - 1 :=
    dget_dupdate_self m n (fun v => v - 1)
  unfold dupdate
  cases hany : m.any (fun p => decide (p.1 = n)) with
  | false =>
    simp only [hany, Bool.false_eq_true, if_false]
    have h0 : dget m n = 0 := dget_of_no_key (any_key_false hany)
    have hd : dget (m ++ [(n, 0 - 1)]) n = -1 := by
      unfold dupdate at hself
      rw [hany] at hself
      simp only [Bool.false_eq_true, if_false] at hself
      rw [hself, h0]
      omega
    rw [intSum_append, hd]
    simp [intSum_cons, intSum_nil]
  | true =>
    simp only [hany, if_true]
    have hpush := intSum_map_dec_push m n hany
    have hd : dget (m.map (fun p => if p.1 = n then (p.1, p.2 - 1) else p)) n =
        dget m n - 1 := by
      unfold dupdate at hself
      rw [hany] at hself
      simpa using hself
    rw [hd]
    by_cases h1 : dget m n = 1
    · rw [if_pos (show dget m n - 1 = 0 by omega)]
      rw [if_pos h1] at hpush
      omega
    · rw [if_neg (show ¬ dget m n - 1 = 0 by omega)]
      rw [if_neg h1] at hpush
      omega

theorem processNeighbors_measure (ns : List String) :
    ∀ (m : List (String × Int)) (q : List String),
      (processNeighbors m q ns).2.length + intSum (processNeighbors m q ns).1 ≤
        q.length + intSum m := by
  induction ns with
  | nil => intro m q; simp [processNeighbors]
  | cons n ns ih =>
    intro m q
    have hmeas := dupdate_dec_measure m n
    by_cases hz : dget (dupdate m n (fun v => v - 1)) n = 0
    · have hstep : processNeighbors m q (n :: ns) =
          processNeighbors (dupdate m n (fun v => v - 1)) (q ++ [n]) ns := by
        simp [processNeighbors, hz]
      rw [hstep]
      have := ih (dupdate m n (fun v => v - 1)) (q ++ [n])
      rw [if_pos hz] at hmeas
      simp only [List.length_append, List.length_cons, List.length_nil] at *
      omega
    · have hstep : processNeighbors m q (n :: ns) =
          processNeighbors (dupdate m n (fun v => v - 1)) q ns := by
        simp [processNeighbors, hz]
      rw [hstep]
      have := ih (dupdate m n (fun v => v - 1)) q
      rw [if_neg hz] at hmeas
      omega

theorem processNeighbors_dget (ns : List String) :
    ∀ (m : List (String × Int)) (q : List String) (t : String),
      dget (processNeighbors m q ns).1 t = dget m t - (ns.count t : Int) := by
  induction ns with
  | nil => intro m q t; simp [processNeighbors]
  | cons n ns ih =>
    intro m q t
    have hstep : (processNeighbors m q (n :: ns)).1 =
        (processNeighbors (dupdate m n (fun v => v - 1))
          (if dget (dupdate m n (fun v => v - 1)) n = 0 then q ++ [n] else q) ns).1 := rfl
    rw [hstep, ih]
    by_cases ht : n = t
    · subst ht
      rw [dget_dupdate_self]
      have : (n :: ns).count n = ns.count n + 1 := by simp [List.count_cons]
      rw [this]
      push_cast
      omega
    · rw [dget_dupdate_ne _ _ _ _ (Ne.symm ht)]
      have : (n :: ns).count t = ns.count t := by simp [List.count_cons, ht]
      rw [this]

theorem processNeighbors_queue (ns : List String) :
    ∀ (m : List (String × Int)) (q : List String),
      (∀ t, (ns.count t : Int) ≤ dget m t) →
      ∃ pushed, (processNeighbors m q ns).2 = q ++ pushed ∧ pushed.Nodup ∧
        (∀ t, t ∈ pushed ↔ (1 ≤ ns.count t ∧ dget m t = (ns.count t : Int))) := by
  induction ns with
  | nil =>
    intro m q _
    exact ⟨[], by simp [processNeighbors], by simp, by simp⟩
  | cons n ns ih =>
    intro m q h
    have hcount_n : 1 ≤ (n :: ns).count n := by simp [List.count_cons]
    have hcn : ((n :: ns).count n : Int) = (ns.count n : Int) + 1 := by
      simp [List.count_cons]
    have hcne : ∀ t, ¬ t = n → (n :: ns).count t = ns.count t := by
      intro t ht
      have htn : ¬ n = t := fun hh => ht hh.symm
      simp [List.count_cons, ht, htn]
    have hdm0 : dget (dupdate m n (fun v => v - 1)) n = dget m n - 1 :=
      dget_dupdate_self m n (fun v => v - 1)
    have h' : ∀ t, (ns.count t : Int) ≤ dget (dupdate m n (fun v => v - 1)) t := by
      intro t
      by_cases ht : t = n
      · subst ht
        rw [hdm0]
        have := h t
        rw [hcn] at this
        omega
      · rw [dget_dupdate_ne _ _ _ _ ht]
        have := h t
        rw [show ((n :: ns).count t : Int) = (ns.count t : Int) by rw [hcne t ht]] at this
        exact this
    by_cases hz : dget (dupdate m n (fun v => v - 1)) n = 0
    · -- the head neighbor is pushed
      have hstep : processNeighbors m q (n :: ns) =
          processNeighbors (dupdate m n (fun v => v - 1)) (q ++ [n]) ns := by
        simp [processNeighbors, hz]
      rw [hstep]
      rcases ih (dupdate m n (fun v => v - 1)) (q ++ [n]) h' with ⟨pushed, heq, hnd, hiff⟩
      have hdm : dget m n = 1 := by omega
      have hns0 : ns.count n = 0 := by
        have := h' n
        rw [hz] at this
        omega
      have hnmem : n ∉ pushed := by
        intro hc
        have := (hiff n).mp hc
        omega
      refine ⟨n :: pushed, by rw [heq, List.append_assoc]; rfl, by simp [hnd, hnmem], ?_⟩
      intro t
      by_cases ht : t = n
      · subst ht
        constructor
        · intro _
          refine ⟨hcount_n, ?_⟩
          rw [hdm, hcn, hns0]
          omega
        · intro _
          exact List.mem_cons_self t pushed
      · rw [List.mem_cons, hiff t, dget_dupdate_ne _ _ _ _ ht,
          show ((n :: ns).count t : Int) = (ns.count t : Int) by rw [hcne t ht],
          hcne t ht]
        constructor
        · rintro (rfl | hmem)
          · exact absurd rfl ht
          · exact hmem
        · intro hmem
          exact Or.inr hmem
    · -- the head neighbor is not pushed
      have hstep : processNeighbors m q (n :: ns) =
          processNeighbors (dupdate m n (fun v => v - 1)) q ns := by
        simp [processNeighbors, hz]
      rw [hstep]
      rcases ih (dupdate m n (fun v => v - 1)) q h' with ⟨pushed, heq, hnd, hiff⟩
      refine ⟨pushed, heq, hnd, ?_⟩
      intro t
      rw [hiff t]
      by_cases ht : t = n
      · subst ht
        rw [hdm0, hcn]
        have hne1 : ¬ dget m t - 1 = 0 := by rw [← hdm0]; exact hz
        constructor
        · rintro ⟨h1, h2⟩
          exact ⟨hcount_n, by omega⟩
        · rintro ⟨h1, h2⟩
          constructor
          · omega
          · omega
      · rw [dget_dupdate_ne _ _ _ _ ht,
          show ((n :: ns).count t : Int) = (ns.count t : Int) by rw [hcne t ht],
          hcne t ht]

/-! ### Kahn loop: invariant preservation -/

theorem countP_split {β : Type _} (l : List β) (p q : β → Bool) :
    l.countP p = l.countP (fun x => p x && q x) + l.countP (fun x => p x && !(q x)) := by
  induction l with
  | nil => rfl
  | cons x xs ih =>
    rw [List.countP_cons, List.countP_cons, List.countP_cons]
    cases hp : p x <;> cases hq : q x <;> simp [hp, hq] <;> omega

theorem adj_count (edges : List (String × String)) (node t : String) :
    (adjOf edges node).count t =
      edges.countP (fun e => decide (e.1 = node) && decide (e.2 = t)) := by
  induction edges with
  | nil => rfl
  | cons e es ih =>
    unfold adjOf at ih ⊢
    rw [List.filter_cons, List.countP_cons]
    by_cases h1 : e.1 = node
    · rw [if_pos (by simpa using h1), List.map_cons, List.count_cons]
      by_cases h2 : e.2 = t
      · simp [h1, h2, ih]
      · simp [h1, h2, ih]
    · rw [if_neg (by simpa using h1)]
      simp [h1, ih]

theorem pend_nonneg (edges : List (String × String)) (res : List String) (t : String) :
    0 ≤ pend edges res t :=
  Int.natCast_nonneg _

theorem pend_append_node {res : List String} {node : String} (hnode : node ∉ res)
    (edges : List (String × String)) (t : String) :
    pend edges (res ++ [node]) t = pend edges res t -
      (edges.countP (fun e => decide (e.1 = node) && decide (e.2 = t)) : Int) := by
  have hsplit := countP_split edges
    (fun e => decide (e.2 = t) && !(decide (e.1 ∈ res)))
    (fun e => decide (e.1 = node))
  have he1 : edges.countP
      (fun e => (decide (e.2 = t) && !(decide (e.1 ∈ res))) && decide (e.1 = node)) =
      edges.countP (fun e => decide (e.1 = node) && decide (e.2 = t)) := by
    apply List.countP_congr
    intro e _
    by_cases h1 : e.1 = node
    · have : e.1 ∉ res := by rw [h1]; exact hnode
      simp [h1, this, hnode]
    · simp [h1]
  have he2 : edges.countP
      (fun e => (decide (e.2 = t) && !(decide (e.1 ∈ res))) && !(decide (e.1 = node))) =
      edges.countP (fun e => decide (e.2 = t) && !(decide (e.1 ∈ res ++ [node]))) := by
    apply List.countP_congr
    intro e _
    by_cases h1 : e.1 = node
    · simp [h1]
    · by_cases h2 : e.1 ∈ res <;> simp [h1, h2]
  unfold pend
  rw [← he2]
  rw [hsplit, he1]
  push_cast
  omega

theorem indexOf_append_left [DecidableEq α] (l l2 : List α) {a : α} (h : a ∈ l) :
    (l ++ l2).indexOf a = l.indexOf a := by
  induction l with
  | nil => simp at h
  | cons x xs ih =>
    by_cases hx : x = a
    · subst hx
      rw [List.cons_append, List.indexOf_cons_self, List.indexOf_cons_self]
    · have ha : a ∈ xs := by
        rcases List.mem_cons.mp h with h' | h'
        · exact absurd h'.symm hx
        · exact h'
      rw [List.cons_append, List.indexOf_cons_ne _ hx, List.indexOf_cons_ne _ hx, ih ha]

theorem indexOf_append_singleton_self [DecidableEq α] (l : List α) {a : α} (h : a ∉ l) :
    (l ++ [a]).indexOf a = l.length := by
  induction l with
  | nil => simp
  | cons x xs ih =>
    have hx : x ≠ a := by
      intro e
      exact h (e ▸ List.mem_cons_self x xs)
    rw [List.cons_append, List.indexOf_cons_ne _ hx,
      ih (fun hm => h (List.mem_cons_of_mem x hm)), List.length_cons]

theorem kahn_step {titles : List String} {edges : List (String × String)}
    (hE : ∀ e ∈ edges, e.1 ∈ titles ∧ e.2 ∈ titles)
    {m : List (String × Int)} {node : String} {rest res : List String}
    (hInv : KahnInv titles edges m (node :: rest) res) :
    KahnInv titles edges (processNeighbors m rest (adjOf edges node)).1
      (processNeighbors m rest (adjOf edges node)).2 (res ++ [node]) := by
  obtain ⟨ha, hrnd, hqnd, hdisj, hrT, hqT, hzero, hcomplete, horder⟩ := hInv
  have hnode_nres : node ∉ res := hdisj node (by simp)
  have hnode_T : node ∈ titles := hqT node (by simp)
  have hpend_node : pend edges res node = 0 := hzero node (Or.inl (by simp))
  have hk : ∀ t, ((adjOf edges node).count t : Int) =
      (edges.countP (fun e => decide (e.1 = node) && decide (e.2 = t)) : Int) := by
    intro t
    rw [adj_count]
  have hpend' : ∀ t, pend edges (res ++ [node]) t =
      pend edges res t - ((adjOf edges node).count t : Int) := by
    intro t
    rw [hk t, pend_append_node hnode_nres]
  have hpre : ∀ t, ((adjOf edges node).count t : Int) ≤ dget m t := by
    intro t
    rw [ha t]
    have h0 : 0 ≤ pend edges (res ++ [node]) t := pend_nonneg _ _ _
    have := hpend' t
    omega
  obtain ⟨pushed, hq', hpnd, hpiff⟩ :=
    processNeighbors_queue (adjOf edges node) m rest hpre
  have ha' : ∀ t, dget (processNeighbors m rest (adjOf edges node)).1 t =
      pend edges (res ++ [node]) t := by
    intro t
    rw [processNeighbors_dget (adjOf edges node) m rest t, ha t, hpend' t]
  have hpush_char : ∀ t, t ∈ pushed ↔
      (1 ≤ (adjOf edges node).count t ∧
        pend edges res t = ((adjOf edges node).count t : Int)) := by
    intro t
    rw [hpiff t, ha t]
  have hpush_pos : ∀ t ∈ pushed, 0 < pend edges res t := by
    intro t ht
    have := (hpush_char t).mp ht
    omega
  have hpush_newzero : ∀ t ∈ pushed, pend edges (res ++ [node]) t = 0 := by
    intro t ht
    have h1 := (hpush_char t).mp ht
    have h2 := hpend' t
    omega
  have hpush_T : ∀ t ∈ pushed, t ∈ titles := by
    intro t ht
    have hc := (hpush_char t).mp ht
    have hpos : 0 < edges.countP (fun e => decide (e.1 = node) && decide (e.2 = t)) := by
      have := hk t
      omega
    rcases List.countP_pos_iff.mp hpos with ⟨e, he, hpe⟩
    simp only [Bool.and_eq_true, decide_eq_true_eq] at hpe
    exact hpe.2 ▸ (hE e he).2
  have hpush_not_res : ∀ t ∈ pushed, t ∉ res := by
    intro t ht hmem
    have := hzero t (Or.inr hmem)
    have := hpush_pos t ht
    omega
  have hpush_ne_node : ∀ t ∈ pushed, t ≠ node := by
    intro t ht he
    have := hpush_pos t ht
    rw [he] at this
    omega
  have hpush_not_rest : ∀ t ∈ pushed, t ∉ rest := by
    intro t ht hmem
    have := hzero t (Or.inl (List.mem_cons_of_mem node hmem))
    have := hpush_pos t ht
    omega
  refine ⟨ha', ?_, ?_, ?_, ?_, ?_, ?_, ?_, ?_⟩
  · exact List.Nodup.append hrnd (by simp) (by
      intro t htr htn
      have : t = node := by simpa using htn
      exact hnode_nres (this ▸ htr))
  · rw [hq']
    exact List.Nodup.append (List.nodup_cons.mp hqnd).2 hpnd
      (fun t htr htp => hpush_not_rest t htp htr)
  · intro t ht hmem
    rw [hq'] at ht
    rcases List.mem_append.mp hmem with h'' | h''
    · rcases List.mem_append.mp ht with h' | h'
      · exact hdisj t (List.mem_cons_of_mem node h') h''
      · exact hpush_not_res t h' h''
    · have htn : t = node := by simpa using h''
      rcases List.mem_append.mp ht with h' | h'
      · exact (List.nodup_cons.mp hqnd).1 (htn ▸ h')
      · exact hpush_ne_node t h' htn
  · intro t hmem
    rcases List.mem_append.mp hmem with h' | h'
    · exact hrT t h'
    · have : t = node := by simpa using h'
      rw [this]
      exact hnode_T
  · intro t ht
    rw [hq'] at ht
    rcases List.mem_append.mp ht with h' | h'
    · exact hqT t (List.mem_cons_of_mem node h')
    · exact hpush_T t h'
  · intro t ht
    have h0' : 0 ≤ pend edges (res ++ [node]) t := pend_nonneg _ _ _
    have hcnt : (0 : Int) ≤ ((adjOf edges node).count t : Int) := Int.natCast_nonneg _
    have hp := hpend' t
    rcases ht with hq | hr
    · rw [hq'] at hq
      rcases List.mem_append.mp hq with h' | h'
      · have := hzero t (Or.inl (List.mem_cons_of_mem node h'))
        omega
      · exact hpush_newzero t h'
    · rcases List.mem_append.mp hr with h' | h'
      · have := hzero t (Or.inr h')
        omega
      · have : t = node := by simpa using h'
        subst this
        omega
  · intro t htT hz0
    by_cases hcase : pend edges res t = 0
    · rcases hcomplete t htT hcase with h' | h'
      · exact Or.inl (List.mem_append_left _ h')
      · rcases List.mem_cons.mp h' with rfl | h''
        · exact Or.inl (List.mem_append_right _ (by simp))
        · refine Or.inr ?_
          rw [hq']
          exact List.mem_append_left _ h''
    · refine Or.inr ?_
      rw [hq']
      apply List.mem_append_right
      apply (hpush_char t).mpr
      have hp := hpend' t
      have hpos : 0 < pend edges res t := by
        have := pend_nonneg edges res t
        omega
      constructor
      · omega
      · omega
  · intro a b hab hb
    rcases List.mem_append.mp hb with h' | h'
    · rcases horder a b hab h' with ⟨haR, hidx⟩
      refine ⟨List.mem_append_left _ haR, ?_⟩
      rw [indexOf_append_left _ _ haR, indexOf_append_left _ _ h']
      exact hidx
    · have hbnode : b = node := by simpa using h'
      subst hbnode
      have hzero_cnt : edges.countP
          (fun e => decide (e.2 = b) && !(decide (e.1 ∈ res))) = 0 := by
        have := hpend_node
        unfold pend at this
        exact_mod_cast this
      have hsrc : a ∈ res := by
        have hall := List.countP_eq_zero.mp hzero_cnt (a, b) hab
        simpa using hall
      refine ⟨List.mem_append_left _ hsrc, ?_⟩
      rw [indexOf_append_left _ _ hsrc, indexOf_append_singleton_self res hnode_nres]
      exact List.indexOf_lt_length.mpr hsrc

theorem kahnLoop_inv {titles : List String} {edges : List (String × String)}
    (hE : ∀ e ∈ edges, e.1 ∈ titles ∧ e.2 ∈ titles) :
    ∀ (fuel : Nat) (m : List (String × Int)) (q res : List String),
      q.length + intSum m ≤ fuel →
      KahnInv titles edges m q res →
      ∃ m', KahnInv titles edges m' [] (kahnLoop edges fuel m q res) := by
  intro fuel
  induction fuel with
  | zero =>
    intro m q res hf hInv
    cases q with
    | nil => exact ⟨m, hInv⟩
    | cons node rest =>
      simp only [List.length_cons] at hf
      omega
  | succ fuel ih =>
    intro m q res hf hInv
    cases q with
    | nil => exact ⟨m, hInv⟩
    | cons node rest =>
      have hstep := kahn_step hE hInv
      have hmeas := processNeighbors_measure (adjOf edges node) m rest
      have hloop : kahnLoop edges (fuel + 1) m (node :: rest) res =
          kahnLoop edges fuel (processNeighbors m rest (adjOf edges node)).1
            (processNeighbors m rest (adjOf edges node)).2 (res ++ [node]) := rfl
      rw [hloop]
      apply ih _ _ _ ?_ hstep
      simp only [List.length_cons] at hf
      omega

theorem dget_init_titles (ts : List String) :
    ∀ (acc : List (String × Int)), (∀ t, dget acc t = 0) →
      ∀ t, dget (ts.foldl (fun m t => dupdate m t (fun _ => 0)) acc) t = 0 := by
  induction ts with
  | nil => intro acc h t; exact h t
  | cons s ss ih =>
    intro acc h t
    apply ih
    intro t'
    by_cases ht : t' = s
    · subst ht
      rw [dget_dupdate_self]
    · rw [dget_dupdate_ne _ _ _ _ ht]
      exact h t'

theorem dget_init_edges (es : List (String × String)) :
    ∀ (acc : List (String × Int)) (t : String),
      dget (es.foldl (fun m e => dupdate m e.2 (fun v => v + 1)) acc) t =
        dget acc t + (es.countP (fun e => decide (e.2 = t)) : Int) := by
  induction es with
  | nil => intro acc t; simp
  | cons e es ih =>
    intro acc t
    rw [List.foldl_cons, ih, List.countP_cons]
    by_cases ht : e.2 = t
    · subst ht
      rw [dget_dupdate_self]
      simp
      omega
    · rw [dget_dupdate_ne _ _ _ _ (fun hh => ht hh.symm)]
      simp [ht]

theorem pend_nil (edges : List (String × String)) (t : String) :
    pend edges [] t = (edges.countP (fun e => decide (e.2 = t)) : Int) := by
  unfold pend
  congr 1
  apply List.countP_congr
  intro e _
  simp

theorem kahn_init (titles : List String) (edges : List (String × String))
    (hT : titles.Nodup) :
    KahnInv titles edges
      (edges.foldl (fun m e => dupdate m e.2 (fun v => v + 1))
        (titles.foldl (fun m t => dupdate m t (fun _ => 0)) []))
      (titles.filter (fun t => decide (dget
        (edges.foldl (fun m e => dupdate m e.2 (fun v => v + 1))
          (titles.foldl (fun m t => dupdate m t (fun _ => 0)) [])) t = 0))) [] := by
  have hm1 : ∀ t, dget (titles.foldl (fun m t => dupdate m t (fun _ => 0)) []) t = 0 :=
    dget_init_titles titles [] (fun t => rfl)
  have hm0 : ∀ t, dget (edges.foldl (fun m e => dupdate m e.2 (fun v => v + 1))
      (titles.foldl (fun m t => dupdate m t (fun _ => 0)) [])) t = pend edges [] t := by
    intro t
    rw [dget_init_edges, hm1, pend_nil]
    omega
  refine ⟨hm0, by simp, hT.filter _, ?_, ?_, ?_, ?_, ?_, ?_⟩
  · intro t _
    simp
  · intro t ht
    simp at ht
  · intro t ht
    exact (List.mem_filter.mp ht).1
  · intro t ht
    rcases ht with ht | ht
    · have := (List.mem_filter.mp ht).2
      rw [← hm0 t]
      simpa using this
    · simp at ht
  · intro t htT h0
    refine Or.inr (List.mem_filter.mpr ⟨htT, ?_⟩)
    rw [decide_eq_true_eq, hm0 t]
    exact h0
  · intro a b _ hb
    simp at hb

theorem internalPrereqEdges_mem (g : GraphDB) (titles : List String) :
    ∀ e ∈ internalPrereqEdges g titles, e.1 ∈ titles ∧ e.2 ∈ titles := by
  intro e he
  unfold internalPrereqEdges at he
  rcases List.mem_map.mp he with ⟨ed, hed, rfl⟩
  have hcond := (List.mem_filter.mp hed).2
  simp only [Bool.and_eq_true, decide_eq_true_eq] at hcond
  exact ⟨hcond.1.1.1.2, hcond.1.1.2⟩

/-- Counterexample for C1: with two input concepts sharing the title
`A` (and any graph — here the empty one), `get_topological_order`
returns `["A", "A"]`: the title `A` appears twice, so the output is not
duplicate-free as the claim requires for every input list. -/
theorem topo_order_duplicate_titles_counterexample :
    get_topological_order exEmptyGraph [exConA, exConA] = ["A", "A"] ∧
    ¬ (get_topological_order exEmptyGraph [exConA, exConA]).Nodup := by
  constructor
  · decide
  · decide

/-- C1 (amended): for every input list of concepts whose titles are
pairwise distinct, `get_topological_order` returns a permutation of the
input titles — every input title exactly once, no duplicates, no
omissions — even when the internal `PREREQ_OF` edge set contains
cycles; titles not placed by the Kahn loop are appended afterward in
original input order by the trailing loop (`pyAppendNew`). -/
theorem topo_order_perm_of_nodup (g : GraphDB) (cs : List RetrievedConcept)
    (h : (cs.map (fun c => c.title)).Nodup) :
    (get_topological_order g cs).Perm (cs.map (fun c => c.title)) := by
  have hE := internalPrereqEdges_mem g (cs.map (fun c => c.title))
  set titles := cs.map (fun c => c.title) with hti
  set edges := internalPrereqEdges g titles with hed
  set m1 := titles.foldl (fun m t => dupdate m t (fun _ => 0)) [] with hm1
  set m0 := edges.foldl (fun m e => dupdate m e.2 (fun v => v + 1)) m1 with hm0
  set q0 := titles.filter (fun t => decide (dget m0 t = 0)) with hq0
  have hinit : KahnInv titles edges m0 q0 [] := kahn_init titles edges h
  obtain ⟨m', hfin⟩ := kahnLoop_inv hE (q0.length + intSum m0) m0 q0 [] (le_refl _) hinit
  obtain ⟨-, hnd', -, -, hsub', -, -, -, -⟩ := hfin
  have hout : get_topological_order g cs =
      pyAppendNew (kahnLoop edges (q0.length + intSum m0) m0 q0 []) titles := rfl
  rw [hout]
  refine (List.perm_ext_iff_of_nodup (nodup_pyAppendNew hnd') h).mpr ?_
  intro t
  rw [mem_pyAppendNew]
  constructor
  · rintro (h' | h')
    · exact hsub' t h'
    · exact h'
  · intro h'
    exact Or.inr h'

/-- Witness for C1 (amended) on a two-concept graph with one edge. -/
theorem topo_order_perm_of_nodup_witness :
    (([exConB, exConA] : List RetrievedConcept).map (fun c => c.title)).Nodup ∧
    (get_topological_order exABGraph [exConB, exConA]).Perm
      (([exConB, exConA] : List RetrievedConcept).map (fun c => c.title)) :=
  ⟨by decide, topo_order_perm_of_nodup exABGraph [exConB, exConA] (by decide)⟩

/-- C2: for every concept list with pairwise distinct titles whose
internal `PREREQ_OF` relation is acyclic, `get_topological_order`
places every prerequisite strictly before its dependent: each internal
edge `(a, b)` yields `indexOf a < indexOf b` in the output. -/
theorem topo_order_respects_edges (g : GraphDB) (cs : List RetrievedConcept)
    (h : (cs.map (fun c => c.title)).Nodup)
    (hacyc : ∀ t, ¬ Relation.TransGen
      (fun a b => (a, b) ∈ internalPrereqEdges g (cs.map (fun c => c.title))) t t) :
    ∀ a b, (a, b) ∈ internalPrereqEdges g (cs.map (fun c => c.title)) →
      (get_topological_order g cs).indexOf a < (get_topological_order g cs).indexOf b := by
  have hE := internalPrereqEdges_mem g (cs.map (fun c => c.title))
  set titles := cs.map (fun c => c.title) with hti
  set edges := internalPrereqEdges g titles with hed
  set m1 := titles.foldl (fun m t => dupdate m t (fun _ => 0)) [] with hm1
  set m0 := edges.foldl (fun m e => dupdate m e.2 (fun v => v + 1)) m1 with hm0
  set q0 := titles.filter (fun t => decide (dget m0 t = 0)) with hq0
  have hinit : KahnInv titles edges m0 q0 [] := kahn_init titles edges h
  obtain ⟨m', hfin⟩ := kahnLoop_inv hE (q0.length + intSum m0) m0 q0 [] (le_refl _) hinit
  set kres := kahnLoop edges (q0.length + intSum m0) m0 q0 [] with hkr
  obtain ⟨-, -, -, -, -, -, -, hcomp', hord'⟩ := hfin
  have hcomplete_all : ∀ t ∈ titles, t ∈ kres := by
    by_contra hcon
    push_neg at hcon
    obtain ⟨t0, ht0T, ht0n⟩ := hcon
    set S := titles.filter (fun t => !(decide (t ∈ kres))) with hS
    have ht0S : t0 ∈ S := List.mem_filter.mpr ⟨ht0T, by simpa using ht0n⟩
    have hdesc : ∀ t ∈ S, ∃ x, x ∈ S ∧ (x, t) ∈ edges := by
      intro t htS
      have htT := (List.mem_filter.mp htS).1
      have htn : t ∉ kres := by
        have := (List.mem_filter.mp htS).2
        simpa using this
      have hpend_ne : pend edges kres t ≠ 0 := by
        intro h0
        rcases hcomp' t htT h0 with h' | h'
        · exact htn h'
        · simp at h'
      have hpend_pos : 0 < edges.countP
          (fun e => decide (e.2 = t) && !(decide (e.1 ∈ kres))) := by
        have h1 := pend_nonneg edges kres t
        unfold pend at hpend_ne h1
        omega
      rcases List.countP_pos_iff.mp hpend_pos with ⟨e, he, hpe⟩
      simp only [Bool.and_eq_true, decide_eq_true_eq, Bool.not_eq_true',
        decide_eq_false_iff_not] at hpe
      refine ⟨e.1, List.mem_filter.mpr ⟨(hE e he).1, by simpa using hpe.2⟩, ?_⟩
      rw [← hpe.1]
      simpa using he
    have hstep : ∀ x : {x // x ∈ S}, ∃ y : {y // y ∈ S}, (y.1, x.1) ∈ edges := by
      intro x
      rcases hdesc x.1 x.2 with ⟨y, hyS, hye⟩
      exact ⟨⟨y, hyS⟩, hye⟩
    choose f hf using hstep
    let seq : Nat → {x // x ∈ S} := fun n => n.rec ⟨t0, ht0S⟩ (fun _ x => f x)
    have hchain : ∀ n, ((seq (n + 1)).1, (seq n).1) ∈ edges := fun n => hf (seq n)
    have htg : ∀ j i, i < j →
        Relation.TransGen (fun a b => (a, b) ∈ edges) (seq j).1 (seq i).1 := by
      intro j
      induction j with
      | zero => intro i hi; exact absurd hi (Nat.not_lt_zero i)
      | succ j ihj =>
        intro i hi
        rcases Nat.lt_succ_iff_lt_or_eq.mp hi with h' | h'
        · exact Relation.TransGen.head (hchain j) (ihj i h')
        · subst h'
          exact Relation.TransGen.single (hchain i)
    have hfinS : Finite {x // x ∈ S} := by
      apply Finite.of_injective
        (fun x : {x // x ∈ S} => (⟨S.indexOf x.1, List.indexOf_lt_length.mpr x.2⟩ :
          Fin S.length))
      intro x y hxy
      apply Subtype.ext
      have h' : S.indexOf x.1 = S.indexOf y.1 := congrArg Fin.val hxy
      exact (List.indexOf_inj x.2 y.2).mp h'
    obtain ⟨i, j, hne, heq⟩ := Finite.exists_ne_map_eq_of_infinite seq
    rcases Nat.lt_or_ge i j with h' | h'
    · refine hacyc (seq i).1 ?_
      have htg' := htg j i h'
      rw [← heq] at htg'
      exact htg'
    · have h'' : j < i := by omega
      refine hacyc (seq j).1 ?_
      have htg' := htg i j h''
      rw [heq] at htg'
      exact htg'
  have hout : get_topological_order g cs = pyAppendNew kres titles := rfl
  have hout_eq : pyAppendNew kres titles = kres :=
    pyAppendNew_eq_self (fun t ht => hcomplete_all t ht)
  intro a b hab
  have hbT : b ∈ titles := (hE (a, b) hab).2
  have hbK : b ∈ kres := hcomplete_all b hbT
  rcases hord' a b hab hbK with ⟨-, hidx⟩
  rw [hout, hout_eq]
  exact hidx

/-- The single-edge graph `exABGraph` has an acyclic internal
`PREREQ_OF` relation on the titles of `[exConB, exConA]`. -/
theorem exAB_acyclic : ∀ t, ¬ Relation.TransGen
    (fun a b => (a, b) ∈
      internalPrereqEdges exABGraph (([exConB, exConA] : List RetrievedConcept).map
        (fun c => c.title))) t t := by
  have hedges : internalPrereqEdges exABGraph
      (([exConB, exConA] : List RetrievedConcept).map (fun c => c.title)) =
      [("A", "B")] := by decide
  intro t ht
  rw [hedges] at ht
  have key : ∀ x y, Relation.TransGen
      (fun a b => (a, b) ∈ [(("A" : String), ("B" : String))]) x y →
      x = "A" ∧ y = "B" := by
    intro x y hxy
    induction hxy with
    | single hstep =>
      simp only [List.mem_singleton, Prod.mk.injEq] at hstep
      exact hstep
    | tail hxz hstep ih =>
      simp only [List.mem_singleton, Prod.mk.injEq] at hstep
      exfalso
      have : ("B" : String) = "A" := by rw [← ih.2, ← hstep.1]
      exact absurd this (by decide)
  have hkey := key t t ht
  exact absurd (hkey.1.symm.trans hkey.2) (by decide)

/-- Witness for C2 on the single-edge graph: the prerequisite `A` is
placed before its dependent `B`. -/
theorem topo_order_respects_edges_witness :
    (([exConB, exConA] : List RetrievedConcept).map (fun c => c.title)).Nodup ∧
    ("A", "B") ∈ internalPrereqEdges exABGraph
      (([exConB, exConA] : List RetrievedConcept).map (fun c => c.title)) ∧
    (get_topological_order exABGraph [exConB, exConA]).indexOf "A" <
      (get_topological_order exABGraph [exConB, exConA]).indexOf "B" :=
  ⟨by decide, by decide,
    topo_order_respects_edges exABGraph [exConB, exConA] (by decide) exAB_acyclic
      "A" "B" (by decide)⟩
